import Mathlib

/-!
Verification of the r3labs/diff repository against its natural-language
specification.

The repository computes a structural difference between two Go values
(structs, slices, strings, bools, ints, maps, pointers) as an ordered
Changelog of Change records, and can apply such a changelog to a target
value (Patch).  This file gives a shallow embedding of the engine:

* Value is the model of a Go runtime value as seen through reflection.
  Struct fields carry their Go field name, their raw diff tag string and
  their value.  Map values are association lists in Go insertion order;
  Go map iteration order is unspecified, which is analysed separately
  for the determinism claim via an explicit iteration-order parameter.
* The v1 diff engine (src/diff.go lines 41-127, src/unnamed/part_000,
  part_002, part_003, part_005, part_006, part_007, src/diff_map.go,
  src/diff_bool.go) is embedded as the mutual block around the function
  named diff below.
* The standalone patch engine (src/patch.go, src/change_value.go) is
  embedded further down, as is the v3 pointer cycle guard
  (src/unnamed/part_004) over an explicit heap, and a model of Go
  slice-append aliasing for the path-immutability claim.
-/

namespace DiffSpec

/-- Model of a Go value under reflection.  A struct field is a triple
(Go field name, raw diff tag string, field value).  invalid models
reflect.Kind Invalid (the zero reflect.Value), which arises from a nil
interface or from FieldByName on a missing field. -/
inductive Value where
  | invalid : Value
  | str (s : String) : Value
  | bool (b : Bool) : Value
  | int (n : Int) : Value
  | struct_ (fields : List (String × String × Value)) : Value
  | slice (elems : List Value) : Value
  | map_ (entries : List (Value × Value)) : Value
  | ptr (v : Option Value) : Value

mutual

/-- Structural equality of model values; this is what reflect.DeepEqual
computes on the fragment of Go values covered by the model. -/
def Value.beq : Value → Value → Bool
  | .invalid, .invalid => true
  | .str a, .str b => a == b
  | .bool a, .bool b => a == b
  | .int a, .int b => a == b
  | .struct_ fa, .struct_ fb => beqFields fa fb
  | .slice as_, .slice bs => beqElems as_ bs
  | .map_ ma, .map_ mb => beqPairs ma mb
  | .ptr (some a), .ptr (some b) => Value.beq a b
  | .ptr none, .ptr none => true
  | _, _ => false
termination_by structural a => a

def beqFields : List (String × String × Value) → List (String × String × Value) → Bool
  | [], [] => true
  | f :: fs, g :: gs =>
      f.1 == g.1 && f.2.1 == g.2.1 && Value.beq f.2.2 g.2.2 && beqFields fs gs
  | _, _ => false
termination_by structural fa => fa

def beqElems : List Value → List Value → Bool
  | [], [] => true
  | x :: xs, y :: ys => Value.beq x y && beqElems xs ys
  | _, _ => false
termination_by structural xs => xs

def beqPairs : List (Value × Value) → List (Value × Value) → Bool
  | [], [] => true
  | p :: ps, q :: qs => Value.beq p.1 q.1 && Value.beq p.2 q.2 && beqPairs ps qs
  | _, _ => false
termination_by structural ps => ps

end

mutual

theorem Value.beq_iff : ∀ a b : Value, Value.beq a b = true ↔ a = b
  | .invalid, .invalid => by simp [Value.beq]
  | .str a, .str b => by simp [Value.beq]
  | .bool a, .bool b => by simp [Value.beq]
  | .int a, .int b => by simp [Value.beq]
  | .struct_ fa, .struct_ fb => by
      simp only [Value.beq, beqFields_iff fa fb, Value.struct_.injEq]
  | .slice as_, .slice bs => by
      simp only [Value.beq, beqElems_iff as_ bs, Value.slice.injEq]
  | .map_ ma, .map_ mb => by
      simp only [Value.beq, beqPairs_iff ma mb, Value.map_.injEq]
  | .ptr (some a), .ptr (some b) => by
      simp [Value.beq, Value.beq_iff a b]
  | .ptr none, .ptr none => by simp [Value.beq]
  | .invalid, .str _ => by simp [Value.beq]
  | .invalid, .bool _ => by simp [Value.beq]
  | .invalid, .int _ => by simp [Value.beq]
  | .invalid, .struct_ _ => by simp [Value.beq]
  | .invalid, .slice _ => by simp [Value.beq]
  | .invalid, .map_ _ => by simp [Value.beq]
  | .invalid, .ptr _ => by simp [Value.beq]
  | .str _, .invalid => by simp [Value.beq]
  | .str _, .bool _ => by simp [Value.beq]
  | .str _, .int _ => by simp [Value.beq]
  | .str _, .struct_ _ => by simp [Value.beq]
  | .str _, .slice _ => by simp [Value.beq]
  | .str _, .map_ _ => by simp [Value.beq]
  | .str _, .ptr _ => by simp [Value.beq]
  | .bool _, .invalid => by simp [Value.beq]
  | .bool _, .str _ => by simp [Value.beq]
  | .bool _, .int _ => by simp [Value.beq]
  | .bool _, .struct_ _ => by simp [Value.beq]
  | .bool _, .slice _ => by simp [Value.beq]
  | .bool _, .map_ _ => by simp [Value.beq]
  | .bool _, .ptr _ => by simp [Value.beq]
  | .int _, .invalid => by simp [Value.beq]
  | .int _, .str _ => by simp [Value.beq]
  | .int _, .bool _ => by simp [Value.beq]
  | .int _, .struct_ _ => by simp [Value.beq]
  | .int _, .slice _ => by simp [Value.beq]
  | .int _, .map_ _ => by simp [Value.beq]
  | .int _, .ptr _ => by simp [Value.beq]
  | .struct_ _, .invalid => by simp [Value.beq]
  | .struct_ _, .str _ => by simp [Value.beq]
  | .struct_ _, .bool _ => by simp [Value.beq]
  | .struct_ _, .int _ => by simp [Value.beq]
  | .struct_ _, .slice _ => by simp [Value.beq]
  | .struct_ _, .map_ _ => by simp [Value.beq]
  | .struct_ _, .ptr _ => by simp [Value.beq]
  | .slice _, .invalid => by simp [Value.beq]
  | .slice _, .str _ => by simp [Value.beq]
  | .slice _, .bool _ => by simp [Value.beq]
  | .slice _, .int _ => by simp [Value.beq]
  | .slice _, .struct_ _ => by simp [Value.beq]
  | .slice _, .map_ _ => by simp [Value.beq]
  | .slice _, .ptr _ => by simp [Value.beq]
  | .map_ _, .invalid => by simp [Value.beq]
  | .map_ _, .str _ => by simp [Value.beq]
  | .map_ _, .bool _ => by simp [Value.beq]
  | .map_ _, .int _ => by simp [Value.beq]
  | .map_ _, .struct_ _ => by simp [Value.beq]
  | .map_ _, .slice _ => by simp [Value.beq]
  | .map_ _, .ptr _ => by simp [Value.beq]
  | .ptr _, .invalid => by simp [Value.beq]
  | .ptr _, .str _ => by simp [Value.beq]
  | .ptr _, .bool _ => by simp [Value.beq]
  | .ptr _, .int _ => by simp [Value.beq]
  | .ptr _, .struct_ _ => by simp [Value.beq]
  | .ptr _, .slice _ => by simp [Value.beq]
  | .ptr _, .map_ _ => by simp [Value.beq]
  | .ptr (some _), .ptr none => by simp [Value.beq]
  | .ptr none, .ptr (some _) => by simp [Value.beq]
termination_by structural a => a

theorem beqFields_iff : ∀ fa fb : List (String × String × Value),
    beqFields fa fb = true ↔ fa = fb
  | [], [] => by simp [beqFields]
  | f :: fs, g :: gs => by
      simp [beqFields, Value.beq_iff f.2.2 g.2.2, beqFields_iff fs gs,
        Prod.ext_iff, and_assoc]
  | [], _ :: _ => by simp [beqFields]
  | _ :: _, [] => by simp [beqFields]
termination_by structural fa => fa

theorem beqElems_iff : ∀ xs ys : List Value, beqElems xs ys = true ↔ xs = ys
  | [], [] => by simp [beqElems]
  | x :: xs, y :: ys => by
      simp [beqElems, Value.beq_iff x y, beqElems_iff xs ys]
  | [], _ :: _ => by simp [beqElems]
  | _ :: _, [] => by simp [beqElems]
termination_by structural xs => xs

theorem beqPairs_iff : ∀ ps qs : List (Value × Value), beqPairs ps qs = true ↔ ps = qs
  | [], [] => by simp [beqPairs]
  | p :: ps, q :: qs => by
      simp [beqPairs, Value.beq_iff p.1 q.1, Value.beq_iff p.2 q.2,
        beqPairs_iff ps qs, Prod.ext_iff, and_assoc]
  | [], _ :: _ => by simp [beqPairs]
  | _ :: _, [] => by simp [beqPairs]
termination_by structural ps => ps

end

instance : DecidableEq Value := fun a b =>
  decidable_of_iff (Value.beq a b = true) (Value.beq_iff a b)

/-- reflect.Kind of a model value. -/
inductive Kind where
  | invalid | str | bool | int | struct_ | slice | map_ | ptr
  deriving DecidableEq, Repr

/-- Mirrors reflect.Value.Kind on the model. -/
def Value.kind : Value → Kind
  | .invalid => .invalid
  | .str _ => .str
  | .bool _ => .bool
  | .int _ => .int
  | .struct_ _ => .struct_
  | .slice _ => .slice
  | .map_ _ => .map_
  | .ptr _ => .ptr

-- Size measure used for termination of the diff recursion.
mutual

def Value.sz : Value → Nat
  | .invalid => 1
  | .str _ => 1
  | .bool _ => 1
  | .int _ => 1
  | .struct_ fs => 1 + szFields fs
  | .slice es => 1 + szElems es
  | .map_ ps => 1 + szPairs ps
  | .ptr none => 1
  | .ptr (some v) => 1 + v.sz
termination_by structural v => v

def szFields : List (String × String × Value) → Nat
  | [] => 0
  | f :: fs => 1 + f.2.2.sz + szFields fs
termination_by structural fs => fs

def szElems : List Value → Nat
  | [] => 0
  | x :: xs => 1 + x.sz + szElems xs
termination_by structural xs => xs

def szPairs : List (Value × Value) → Nat
  | [] => 0
  | p :: ps => 1 + p.1.sz + p.2.sz + szPairs ps
termination_by structural ps => ps

end

/-- CREATE constant, src/diff.go line 17: the string literal create. -/
def CREATE : String := "create"

/-- UPDATE constant, src/diff.go line 19: the string literal update. -/
def UPDATE : String := "update"

/-- DELETE constant, src/diff.go line 21: the string literal delete. -/
def DELETE : String := "delete"

/-- Change record, src/diff.go lines 28-33.  From and To are Go
interface values that may be nil, modelled as Option Value. -/
structure Change where
  type : String
  path : List String
  fromv : Option Value
  tov : Option Value
  deriving DecidableEq

/-- Changelog, src/diff.go line 25. -/
abbrev Changelog := List Change

/-- Diff errors.  typeMismatch covers both ErrTypeMismatch and the
equal-message errors.New calls in the dispatcher (src/diff.go lines 12
and 52, src/unnamed/part_006); unsupported is the
unsupported-type error of the dispatcher default case. -/
inductive DiffError where
  | typeMismatch
  | unsupported (k : Kind)
  deriving DecidableEq, Repr

/-- strings.Split(tag, char-comma), implemented character-wise so that it
is computable by the kernel.  Like the Go function it always returns at
least one token, and an empty input yields one empty token. -/
def splitOnCommaAux : List Char → List Char → List String
  | [], acc => [String.mk acc.reverse]
  | c :: rest, acc =>
      if c = (',') then String.mk acc.reverse :: splitOnCommaAux rest []
      else splitOnCommaAux rest (c :: acc)

def splitOnComma (s : String) : List String := splitOnCommaAux s.data []

/-- tagName, src/diff.go lines 90-99: first comma-separated token of the
field diff tag.  strings.Split never returns an empty list, so the
len(parts) < 1 guard is vacuous and the result is the head token. -/
def tagName (tag : String) : String := (splitOnComma tag).headD ("")

/-- identifier, src/unnamed/part_006 lines 118-133: scan the struct
fields; for a field whose tag splits into at least two tokens and whose
second token is the literal identifier, return that field value.  On a
non-struct value v.NumField() would panic in Go; the engine only applies
identifier to values the comparative check classified as structs, and
the model returns none for other kinds. -/
def identifierFields : List (String × String × Value) → Option Value
  | [] => none
  | f :: rest =>
      let parts := splitOnComma f.2.1
      if parts.length < 2 then identifierFields rest
      else if parts.getD 1 ("") == "identifier" then some f.2.2
      else identifierFields rest

def identifier : Value → Option Value
  | .struct_ fs => identifierFields fs
  | _ => none

/-- idstring, src/diff.go lines 118-127: stringify a comparative key;
strings map to themselves, ints through strconv.Itoa, anything else to
the empty string. -/
def idstring : Value → String
  | .str s => s
  | .int n => toString n
  | _ => ""

/-- getFinalValue, src/unnamed/part_005 lines 166-174: unwrap pointers
(reflect.Indirect of a nil pointer is the invalid Value).  The model has
no separate interface kind, so the Interface case does not arise. -/
def getFinalValue : Value → Value
  | .ptr (some v) => getFinalValue v
  | .ptr none => .invalid
  | v => v

/-- comparative, src/unnamed/part_005 lines 135-164: a slice pair is
diffed by identifier reconciliation when the first element of either
side unwraps to a struct carrying an identifier tag. -/
def comparative (as_ bs : List Value) : Bool :=
  (match as_ with
   | ae :: _ =>
       let ak := getFinalValue ae
       ak.kind == .struct_ && (identifier ak).isSome
   | [] => false)
  ||
  (match bs with
   | be :: _ =>
       let bk := getFinalValue be
       bk.kind == .struct_ && (identifier bk).isSome
   | [] => false)

/-- sliceHas, src/unnamed/part_005 lines 127-136: linear scan with
reflect.DeepEqual. -/
def sliceHas (s : List Value) (v : Value) : Bool :=
  s.any (fun x => x == v)

/-- FieldByName on the model: first field with the given Go name, or
the invalid Value when absent (reflect.Value.FieldByName semantics). -/
def fieldByName (b : Value) (n : String) : Value :=
  match b with
  | .struct_ fs =>
      match fs.find? (fun f => f.1 == n) with
      | some f => f.2.2
      | none => .invalid
  | _ => .invalid

/-- One entry of a ComparativeList: key, A side, B side
(src/diff.go lines 137-143).  The Go ComparativeList is a map from key
to the pair; the model keeps entries in insertion order of first key
occurrence, which is also how the determinism claim is analysed. -/
abbrev CEntry := Value × Option Value × Option Value

/-- addA, src/diff.go lines 151-156: upsert the A side under key k. -/
def addA (cl : List CEntry) (k : Value) (v : Value) : List CEntry :=
  match cl with
  | [] => [(k, some v, none)]
  | e :: rest => if e.1 = k then (k, some v, e.2.2) :: rest else e :: addA rest k v

/-- addB, src/diff.go lines 158-163: upsert the B side under key k. -/
def addB (cl : List CEntry) (k : Value) (v : Value) : List CEntry :=
  match cl with
  | [] => [(k, none, some v)]
  | e :: rest => if e.1 = k then (k, e.2.1, some v) :: rest else e :: addB rest k v

/-- The A-side loop of diffSliceComparative, src/unnamed/part_005 lines
84-92: elements whose unwrapped value has an identifier are inserted
under it, the rest are skipped. -/
def buildSliceA (cl : List CEntry) : List Value → List CEntry
  | [] => cl
  | ae :: rest =>
      match identifier (getFinalValue ae) with
      | some id_ => buildSliceA (addA cl id_ ae) rest
      | none => buildSliceA cl rest

/-- The B-side loop of diffSliceComparative, src/unnamed/part_005 lines
94-102. -/
def buildSliceB (cl : List CEntry) : List Value → List CEntry
  | [] => cl
  | be :: rest =>
      match identifier (getFinalValue be) with
      | some id_ => buildSliceB (addB cl id_ be) rest
      | none => buildSliceB cl rest

/-- The A-side loop of diffMap, src/diff_map.go lines 18-21: every map
key inserts its value under the key itself. -/
def buildMapA (cl : List CEntry) : List (Value × Value) → List CEntry
  | [] => cl
  | p :: rest => buildMapA (addA cl p.1 p.2) rest

/-- The B-side loop of diffMap, src/diff_map.go lines 23-26. -/
def buildMapB (cl : List CEntry) : List (Value × Value) → List CEntry
  | [] => cl
  | p :: rest => buildMapB (addB cl p.1 p.2) rest

/-- The delete half of diffSliceGeneric, src/unnamed/part_005 lines
60-68: a left element absent by DeepEqual from the right slice is a
DELETE at its left index. -/
def genDeletes (path : List String) (bs : List Value) : Nat → List Value → List Change
  | _, [] => []
  | i, ae :: rest =>
      (if sliceHas bs ae then [] else [⟨DELETE, path ++ [toString i], some ae, none⟩])
        ++ genDeletes path bs (i + 1) rest

/-- The create half of diffSliceGeneric, src/unnamed/part_005 lines
69-77. -/
def genCreates (path : List String) (as_ : List Value) : Nat → List Value → List Change
  | _, [] => []
  | i, be :: rest =>
      (if sliceHas as_ be then [] else [⟨CREATE, path ++ [toString i], none, some be⟩])
        ++ genCreates path as_ (i + 1) rest

/-- diffSliceGeneric, src/unnamed/part_005 lines 59-79. -/
def diffSliceGeneric (path : List String) (as_ bs : List Value) :
    Changelog × Option DiffError :=
  (genDeletes path bs 0 as_ ++ genCreates path as_ 0 bs, none)

/-- Size of a comparative entry for the termination measure: the key is
never recursed into, only the stored A and B values are. -/
def szOptV : Option Value → Nat
  | none => 0
  | some v => v.sz

def szCEntry (e : CEntry) : Nat := 1 + szOptV e.2.1 + szOptV e.2.2

def szCEntries : List CEntry → Nat
  | [] => 0
  | e :: rest => szCEntry e + szCEntries rest

theorem szCEntries_addA (cl : List CEntry) (k v : Value) :
    szCEntries (addA cl k v) ≤ szCEntries cl + 1 + v.sz := by
  induction cl with
  | nil => simp [addA, szCEntries, szCEntry, szOptV]
  | cons e rest ih =>
      by_cases h : e.1 = k
      · simp only [addA, if_pos h, szCEntries, szCEntry, szOptV]
        cases e.2.1 <;> simp [szOptV] <;> omega
      · simp only [addA, if_neg h, szCEntries]
        omega

theorem szCEntries_addB (cl : List CEntry) (k v : Value) :
    szCEntries (addB cl k v) ≤ szCEntries cl + 1 + v.sz := by
  induction cl with
  | nil => simp [addB, szCEntries, szCEntry, szOptV]
  | cons e rest ih =>
      by_cases h : e.1 = k
      · simp only [addB, if_pos h, szCEntries, szCEntry, szOptV]
        cases e.2.2 <;> simp [szOptV] <;> omega
      · simp only [addB, if_neg h, szCEntries]
        omega

theorem szCEntries_buildSliceA (es : List Value) :
    ∀ cl, szCEntries (buildSliceA cl es) ≤ szCEntries cl + szElems es := by
  induction es with
  | nil => intro cl; simp [buildSliceA, szElems]
  | cons ae rest ih =>
      intro cl
      cases h : identifier (getFinalValue ae) with
      | none =>
          simp only [buildSliceA, h, szElems]
          have := ih cl; omega
      | some id_ =>
          simp only [buildSliceA, h, szElems]
          have h1 := ih (addA cl id_ ae)
          have h2 := szCEntries_addA cl id_ ae
          omega

theorem szCEntries_buildSliceB (es : List Value) :
    ∀ cl, szCEntries (buildSliceB cl es) ≤ szCEntries cl + szElems es := by
  induction es with
  | nil => intro cl; simp [buildSliceB, szElems]
  | cons be rest ih =>
      intro cl
      cases h : identifier (getFinalValue be) with
      | none =>
          simp only [buildSliceB, h, szElems]
          have := ih cl; omega
      | some id_ =>
          simp only [buildSliceB, h, szElems]
          have h1 := ih (addB cl id_ be)
          have h2 := szCEntries_addB cl id_ be
          omega

theorem szCEntries_buildMapA (ps : List (Value × Value)) :
    ∀ cl, szCEntries (buildMapA cl ps) ≤ szCEntries cl + szPairs ps := by
  induction ps with
  | nil => intro cl; simp [buildMapA, szPairs]
  | cons p rest ih =>
      intro cl
      simp only [buildMapA, szPairs]
      have h1 := ih (addA cl p.1 p.2)
      have h2 := szCEntries_addA cl p.1 p.2
      omega

theorem szCEntries_buildMapB (ps : List (Value × Value)) :
    ∀ cl, szCEntries (buildMapB cl ps) ≤ szCEntries cl + szPairs ps := by
  induction ps with
  | nil => intro cl; simp [buildMapB, szPairs]
  | cons p rest ih =>
      intro cl
      simp only [buildMapB, szPairs]
      have h1 := ih (addB cl p.1 p.2)
      have h2 := szCEntries_addB cl p.1 p.2
      omega

theorem one_le_sz (v : Value) : 1 ≤ v.sz := by
  cases v with
  | ptr o => cases o <;> simp [Value.sz]
  | _ => simp [Value.sz]

theorem sz_mem_fields_le {f : String × String × Value}
    {fs : List (String × String × Value)} (h : f ∈ fs) : f.2.2.sz ≤ szFields fs := by
  induction fs with
  | nil => cases h
  | cons g gs ih =>
      rcases List.mem_cons.mp h with rfl | h2
      · simp [szFields]; omega
      · have := ih h2
        simp [szFields]; omega

theorem sz_fieldByName_le (b : Value) (n : String) : (fieldByName b n).sz ≤ b.sz := by
  cases b with
  | struct_ fs =>
      simp only [fieldByName]
      cases hf : fs.find? (fun f => f.1 == n) with
      | none => simp [Value.sz]
      | some f =>
          have hm := List.mem_of_find?_eq_some hf
          have := sz_mem_fields_le hm
          simp [Value.sz]; omega
  | ptr o =>
      cases o <;> simp [fieldByName, Value.sz]
  | _ => simp [fieldByName, Value.sz]

/-- diffString, src/unnamed/part_000 lines 5-15: unequal strings emit an
UPDATE carrying both interface values.  The kind guard is repeated from
the dispatcher and is unreachable there. -/
def diffString (path : List String) (a b : Value) : Changelog × Option DiffError :=
  match a, b with
  | .str sa, .str sb =>
      if sa != sb then ([⟨UPDATE, path, some (.str sa), some (.str sb)⟩], none)
      else ([], none)
  | _, _ => ([], some .typeMismatch)

/-- diffInt, src/unnamed/part_002 lines 5-15. -/
def diffInt (path : List String) (a b : Value) : Changelog × Option DiffError :=
  match a, b with
  | .int na, .int nb =>
      if na != nb then ([⟨UPDATE, path, some (.int na), some (.int nb)⟩], none)
      else ([], none)
  | _, _ => ([], some .typeMismatch)

/-- diffBool, src/diff_bool.go lines 5-15. -/
def diffBool (path : List String) (a b : Value) : Changelog × Option DiffError :=
  match a, b with
  | .bool ba, .bool bb =>
      if ba != bb then ([⟨UPDATE, path, some (.bool ba), some (.bool bb)⟩], none)
      else ([], none)
  | _, _ => ([], some .typeMismatch)

mutual

/-- The dispatcher Changelog.diff, src/diff.go lines 48-75 and
src/unnamed/part_006 lines 65-92: differing fundamental kinds abort with
the types-do-not-match error before any dispatch; otherwise dispatch on
the kind.  The result pairs the changes emitted by this subtree with the
error that aborted it, mirroring the Go engine where changes accumulate
in the shared changelog and the error return unwinds the recursion. -/
def diff (path : List String) (a b : Value) : Changelog × Option DiffError :=
  if a.kind != b.kind then ([], some .typeMismatch)
  else
    match a with
    | .struct_ fa => diffStruct path (.struct_ fa) b
    | .slice as_ => diffSlice path (.slice as_) b
    | .str _ => diffString path a b
    | .bool _ => diffBool path a b
    | .int _ => diffInt path a b
    | .map_ aps => diffMap path (.map_ aps) b
    | .ptr oa => diffPtr path (.ptr oa) b
    | .invalid => ([], some (.unsupported .invalid))
termination_by 3 * (a.sz + b.sz) + 2
decreasing_by all_goals omega

/-- diffStruct, src/unnamed/part_003 lines 5-30: loop over the left
fields.  The kind guard is dead via the dispatcher; the non-struct
fallthrough mirrors it. -/
def diffStruct (path : List String) (a b : Value) : Changelog × Option DiffError :=
  match a with
  | .struct_ fa => diffStructFields path fa b
  | _ => ([], some .typeMismatch)
termination_by 3 * (a.sz + b.sz) + 1
decreasing_by all_goals (simp only [Value.sz]; omega)

/-- The field loop of diffStruct: skip fields whose tag name is the
minus literal, otherwise recurse into diff(path+tagname, a-field,
b.FieldByName(name)); a child error unwinds immediately, keeping the
changes emitted so far. -/
def diffStructFields (path : List String) (fs : List (String × String × Value))
    (b : Value) : Changelog × Option DiffError :=
  match fs with
  | [] => ([], none)
  | f :: rest =>
      let tname := tagName f.2.1
      if tname == "-" then diffStructFields path rest b
      else
        let r := diff (path ++ [tname]) f.2.2 (fieldByName b f.1)
        match r.2 with
        | some e => (r.1, some e)
        | none =>
            let rr := diffStructFields path rest b
            (r.1 ++ rr.1, rr.2)
termination_by 3 * (szFields fs + b.sz)
decreasing_by
  all_goals simp only [szFields]
  all_goals first
    | omega
    | (have h3 := sz_fieldByName_le b f.1
       omega)

/-- diffSlice, src/unnamed/part_005 lines 48-57. -/
def diffSlice (path : List String) (a b : Value) : Changelog × Option DiffError :=
  match a, b with
  | .slice as_, .slice bs =>
      if comparative as_ bs then diffSliceComparative path as_ bs
      else diffSliceGeneric path as_ bs
  | _, _ => ([], some .typeMismatch)
termination_by 3 * (a.sz + b.sz) + 1
decreasing_by all_goals (simp only [Value.sz]; omega)

/-- diffSliceComparative, src/unnamed/part_005 lines 82-125: build the
ComparativeList with the two insertion loops, then reconcile it. -/
def diffSliceComparative (path : List String) (as_ bs : List Value) :
    Changelog × Option DiffError :=
  diffComparative path (buildSliceB (buildSliceA [] as_) bs)
termination_by 3 * (szElems as_ + szElems bs) + 3
decreasing_by
  all_goals
    (have h1 := szCEntries_buildSliceB bs (buildSliceA [] as_)
     have h2 := szCEntries_buildSliceA as_ ([] : List CEntry)
     simp only [szCEntries] at h2
     omega)

/-- diffMap, src/diff_map.go lines 11-29: build a ComparativeList keyed
by the map keys themselves, then reconcile it. -/
def diffMap (path : List String) (a b : Value) : Changelog × Option DiffError :=
  match a, b with
  | .map_ aps, .map_ bps =>
      diffComparative path (buildMapB (buildMapA [] aps) bps)
  | _, _ => ([], some .typeMismatch)
termination_by 3 * (a.sz + b.sz) + 1
decreasing_by
  all_goals
    (have h1 := szCEntries_buildMapB bps (buildMapA [] aps)
     have h2 := szCEntries_buildMapA aps ([] : List CEntry)
     simp only [szCEntries] at h2
     simp only [Value.sz]
     omega)

/-- The reconciliation loop over a ComparativeList (the final loop of
diffSliceComparative, src/unnamed/part_005 lines 104-122, identical to
Changelog.diffComparative in src/unnamed/part_001): DELETE for an
A-only entry, CREATE for a B-only entry, recursive diff when both sides
are present; a recursive error unwinds immediately.  The Go code ranges
over a map here; the model iterates entries in insertion order of first
key occurrence, and the determinism claim is analysed separately with an
arbitrary iteration order. -/
def diffComparative (path : List String) (entries : List CEntry) :
    Changelog × Option DiffError :=
  match entries with
  | [] => ([], none)
  | (k, some av, none) :: rest =>
      let rr := diffComparative path rest
      (⟨DELETE, path ++ [idstring k], some av, none⟩ :: rr.1, rr.2)
  | (k, none, some bv) :: rest =>
      let rr := diffComparative path rest
      (⟨CREATE, path ++ [idstring k], none, some bv⟩ :: rr.1, rr.2)
  | (k, some av, some bv) :: rest =>
      let r := diff (path ++ [idstring k]) av bv
      match r.2 with
      | some e => (r.1, some e)
      | none =>
          let rr := diffComparative path rest
          (r.1 ++ rr.1, rr.2)
  | (_, none, none) :: rest => diffComparative path rest
termination_by 3 * szCEntries entries + 2
decreasing_by all_goals (simp only [szCEntries, szCEntry, szOptV]; omega)

/-- diffPtr, src/unnamed/part_007 lines 11-43.  The mixed-kind branches
handle an invalid side by recursing on the dereferenced pointer; they
are unreachable from the dispatcher, which rejects differing kinds
first, but are embedded for fidelity. -/
def diffPtr (path : List String) (a b : Value) : Changelog × Option DiffError :=
  match a, b with
  | .invalid, .ptr (some bv) => diff path .invalid bv
  | .invalid, .ptr none => ([], some .typeMismatch)
  | .ptr (some av), .invalid => diff path av .invalid
  | .ptr none, .invalid => ([], some .typeMismatch)
  | .ptr none, .ptr none => ([], none)
  | .ptr none, .ptr (some bv) =>
      ([⟨UPDATE, path, none, some (.ptr (some bv))⟩], none)
  | .ptr (some av), .ptr none =>
      ([⟨UPDATE, path, some (.ptr (some av)), none⟩], none)
  | .ptr (some av), .ptr (some bv) => diff path av bv
  | _, _ => ([], some .typeMismatch)
termination_by 3 * (a.sz + b.sz) + 1
decreasing_by all_goals (simp only [Value.sz]; omega)

end

/-- Diff, src/diff.go lines 42-46: run the dispatcher from an empty path
on a fresh changelog, returning the accumulated changes together with
the error. -/
def Diff (a b : Value) : Changelog × Option DiffError := diff [] a b

/-! Characterization of ComparativeList building, used for the
self-diff and reconciliation-invariant claims.  buildSliceA and
buildMapA are folds of addA over key-value pairs; insertListA is the
common shape. -/

def slicePairs (es : List Value) : List (Value × Value) :=
  es.filterMap (fun ae => (identifier (getFinalValue ae)).map (fun id_ => (id_, ae)))

def insertListA (cl : List CEntry) : List (Value × Value) → List CEntry
  | [] => cl
  | p :: rest => insertListA (addA cl p.1 p.2) rest

def insertListB (cl : List CEntry) : List (Value × Value) → List CEntry
  | [] => cl
  | p :: rest => insertListB (addB cl p.1 p.2) rest

theorem buildSliceA_eq_insertListA (es : List Value) :
    ∀ cl, buildSliceA cl es = insertListA cl (slicePairs es) := by
  induction es with
  | nil => intro cl; simp [buildSliceA, slicePairs, insertListA]
  | cons ae rest ih =>
      intro cl
      cases h : identifier (getFinalValue ae) with
      | none => simp [buildSliceA, h, slicePairs, List.filterMap_cons, ih]
      | some id_ => simp [buildSliceA, h, slicePairs, List.filterMap_cons, ih, insertListA]

theorem buildSliceB_eq_insertListB (es : List Value) :
    ∀ cl, buildSliceB cl es = insertListB cl (slicePairs es) := by
  induction es with
  | nil => intro cl; simp [buildSliceB, slicePairs, insertListB]
  | cons ae rest ih =>
      intro cl
      cases h : identifier (getFinalValue ae) with
      | none => simp [buildSliceB, h, slicePairs, List.filterMap_cons, ih]
      | some id_ => simp [buildSliceB, h, slicePairs, List.filterMap_cons, ih, insertListB]

theorem buildMapA_eq_insertListA (ps : List (Value × Value)) :
    ∀ cl, buildMapA cl ps = insertListA cl ps := by
  induction ps with
  | nil => intro cl; simp [buildMapA, insertListA]
  | cons p rest ih => intro cl; simp [buildMapA, insertListA, ih]

theorem buildMapB_eq_insertListB (ps : List (Value × Value)) :
    ∀ cl, buildMapB cl ps = insertListB cl ps := by
  induction ps with
  | nil => intro cl; simp [buildMapB, insertListB]
  | cons p rest ih => intro cl; simp [buildMapB, insertListB, ih]

/-- A side of the entry stored under key k, none when the key is absent
or its A side unset. -/
def lookupA (cl : List CEntry) (k : Value) : Option Value :=
  match cl with
  | [] => none
  | e :: rest => if e.1 = k then e.2.1 else lookupA rest k

def lookupB (cl : List CEntry) (k : Value) : Option Value :=
  match cl with
  | [] => none
  | e :: rest => if e.1 = k then e.2.2 else lookupB rest k

/-- Last value inserted under key k by a left-to-right pass of pairs,
i.e. the value the Go map holds after the insertion loop. -/
def lastVal (ps : List (Value × Value)) (k : Value) : Option Value :=
  match ps with
  | [] => none
  | p :: rest =>
      match lastVal rest k with
      | some v => some v
      | none => if p.1 = k then some p.2 else none

/-- Left-biased choice on options, to state the lookup characterization. -/
def orO (a b : Option Value) : Option Value :=
  match a with
  | some v => some v
  | none => b

theorem lookupA_addA (cl : List CEntry) (k v : Value) (q : Value) :
    lookupA (addA cl k v) q = if k = q then some v else lookupA cl q := by
  induction cl with
  | nil => by_cases h : k = q <;> simp [addA, lookupA, h]
  | cons e rest ih =>
      by_cases he : e.1 = k
      · subst he
        by_cases hq : e.1 = q <;> simp [addA, lookupA, hq]
      · simp only [addA, if_neg he, lookupA]
        by_cases hq : e.1 = q
        · have hkq : ¬(k = q) := fun hc => he (by rw [hc, hq])
          simp [hq, hkq]
        · simp [hq, ih]

theorem lookupB_addB (cl : List CEntry) (k v : Value) (q : Value) :
    lookupB (addB cl k v) q = if k = q then some v else lookupB cl q := by
  induction cl with
  | nil => by_cases h : k = q <;> simp [addB, lookupB, h]
  | cons e rest ih =>
      by_cases he : e.1 = k
      · subst he
        by_cases hq : e.1 = q <;> simp [addB, lookupB, hq]
      · simp only [addB, if_neg he, lookupB]
        by_cases hq : e.1 = q
        · have hkq : ¬(k = q) := fun hc => he (by rw [hc, hq])
          simp [hq, hkq]
        · simp [hq, ih]

theorem lookupB_addA (cl : List CEntry) (k v : Value) (q : Value) :
    lookupB (addA cl k v) q = lookupB cl q := by
  induction cl with
  | nil => by_cases h : k = q <;> simp [addA, lookupB, h]
  | cons e rest ih =>
      by_cases he : e.1 = k
      · subst he
        by_cases hq : e.1 = q <;> simp [addA, lookupB, hq]
      · simp only [addA, if_neg he, lookupB]
        by_cases hq : e.1 = q <;> simp [hq, ih]

theorem lookupA_addB (cl : List CEntry) (k v : Value) (q : Value) :
    lookupA (addB cl k v) q = lookupA cl q := by
  induction cl with
  | nil => by_cases h : k = q <;> simp [addB, lookupA, h]
  | cons e rest ih =>
      by_cases he : e.1 = k
      · subst he
        by_cases hq : e.1 = q <;> simp [addB, lookupA, hq]
      · simp only [addB, if_neg he, lookupA]
        by_cases hq : e.1 = q <;> simp [hq, ih]

theorem lookupA_insertListA (ps : List (Value × Value)) :
    ∀ cl q, lookupA (insertListA cl ps) q = orO (lastVal ps q) (lookupA cl q) := by
  induction ps with
  | nil => intro cl q; simp [insertListA, lastVal, orO]
  | cons p rest ih =>
      intro cl q
      simp only [insertListA, lastVal, ih, lookupA_addA]
      cases h : lastVal rest q with
      | some v => simp [orO]
      | none => by_cases hq : p.1 = q <;> simp [orO, hq]

theorem lookupB_insertListB (ps : List (Value × Value)) :
    ∀ cl q, lookupB (insertListB cl ps) q = orO (lastVal ps q) (lookupB cl q) := by
  induction ps with
  | nil => intro cl q; simp [insertListB, lastVal, orO]
  | cons p rest ih =>
      intro cl q
      simp only [insertListB, lastVal, ih, lookupB_addB]
      cases h : lastVal rest q with
      | some v => simp [orO]
      | none => by_cases hq : p.1 = q <;> simp [orO, hq]

theorem lookupB_insertListA (ps : List (Value × Value)) :
    ∀ cl q, lookupB (insertListA cl ps) q = lookupB cl q := by
  induction ps with
  | nil => intro cl q; simp [insertListA]
  | cons p rest ih => intro cl q; simp [insertListA, ih, lookupB_addA]

theorem lookupA_insertListB (ps : List (Value × Value)) :
    ∀ cl q, lookupA (insertListB cl ps) q = lookupA cl q := by
  induction ps with
  | nil => intro cl q; simp [insertListB]
  | cons p rest ih => intro cl q; simp [insertListB, ih, lookupA_addB]

theorem lastVal_mem {ps : List (Value × Value)} {k v : Value}
    (h : lastVal ps k = some v) : (k, v) ∈ ps := by
  induction ps with
  | nil => simp [lastVal] at h
  | cons p rest ih =>
      simp only [lastVal] at h
      cases hr : lastVal rest k with
      | some w =>
          rw [hr] at h
          cases h
          exact List.mem_cons_of_mem _ (ih hr)
      | none =>
          rw [hr] at h
          by_cases hk : p.1 = k
          · rw [if_pos hk] at h
            cases h
            subst hk
            simp
          · rw [if_neg hk] at h
            cases h

/-- Keys of a comparative list are pairwise distinct; addA and addB
preserve this. -/
def keysNodup (cl : List CEntry) : Prop := (cl.map (fun e => e.1)).Nodup

theorem keys_addA_subset {cl : List CEntry} {k v : Value} {q : Value}
    (h : q ∈ (addA cl k v).map (fun e => e.1)) :
    q ∈ cl.map (fun e => e.1) ∨ q = k := by
  induction cl with
  | nil => simp [addA] at h; right; exact h
  | cons e rest ih =>
      by_cases he : e.1 = k
      · simp only [addA, if_pos he, List.map_cons, List.mem_cons] at h
        rcases h with h | h
        · right; exact h
        · left; simp [List.map_cons]; right
          simpa using h
      · simp only [addA, if_neg he, List.map_cons, List.mem_cons] at h
        rcases h with h | h
        · left; simp [h]
        · rcases ih h with h2 | h2
          · left; simp [List.map_cons]; right; simpa using h2
          · right; exact h2

theorem keysNodup_addA {cl : List CEntry} (k v : Value) (h : keysNodup cl) :
    keysNodup (addA cl k v) := by
  induction cl with
  | nil => simp [addA, keysNodup]
  | cons e rest ih =>
      by_cases he : e.1 = k
      · simp only [keysNodup, addA, if_pos he, List.map_cons, List.nodup_cons] at h ⊢
        exact ⟨by rw [← he]; exact h.1, h.2⟩
      · simp only [keysNodup, addA, if_neg he, List.map_cons, List.nodup_cons] at h ⊢
        refine ⟨fun hc => ?_, ih h.2⟩
        rcases keys_addA_subset hc with h2 | h2
        · exact h.1 h2
        · exact he (h2 ▸ rfl)

theorem keys_addB_subset {cl : List CEntry} {k v : Value} {q : Value}
    (h : q ∈ (addB cl k v).map (fun e => e.1)) :
    q ∈ cl.map (fun e => e.1) ∨ q = k := by
  induction cl with
  | nil => simp [addB] at h; right; exact h
  | cons e rest ih =>
      by_cases he : e.1 = k
      · simp only [addB, if_pos he, List.map_cons, List.mem_cons] at h
        rcases h with h | h
        · right; exact h
        · left; simp [List.map_cons]; right
          simpa using h
      · simp only [addB, if_neg he, List.map_cons, List.mem_cons] at h
        rcases h with h | h
        · left; simp [h]
        · rcases ih h with h2 | h2
          · left; simp [List.map_cons]; right; simpa using h2
          · right; exact h2

theorem keysNodup_addB {cl : List CEntry} (k v : Value) (h : keysNodup cl) :
    keysNodup (addB cl k v) := by
  induction cl with
  | nil => simp [addB, keysNodup]
  | cons e rest ih =>
      by_cases he : e.1 = k
      · simp only [keysNodup, addB, if_pos he, List.map_cons, List.nodup_cons] at h ⊢
        exact ⟨by rw [← he]; exact h.1, h.2⟩
      · simp only [keysNodup, addB, if_neg he, List.map_cons, List.nodup_cons] at h ⊢
        refine ⟨fun hc => ?_, ih h.2⟩
        rcases keys_addB_subset hc with h2 | h2
        · exact h.1 h2
        · exact he (h2 ▸ rfl)

theorem keysNodup_insertListA (ps : List (Value × Value)) :
    ∀ cl, keysNodup cl → keysNodup (insertListA cl ps) := by
  induction ps with
  | nil => intro cl h; simpa [insertListA] using h
  | cons p rest ih => intro cl h; exact ih _ (keysNodup_addA _ _ h)

theorem keysNodup_insertListB (ps : List (Value × Value)) :
    ∀ cl, keysNodup cl → keysNodup (insertListB cl ps) := by
  induction ps with
  | nil => intro cl h; simpa [insertListB] using h
  | cons p rest ih => intro cl h; exact ih _ (keysNodup_addB _ _ h)

/-- In a key-nodup comparative list, a member entry is what any lookup
under its key returns. -/
theorem lookupA_of_mem {cl : List CEntry} {e : CEntry}
    (hn : keysNodup cl) (he : e ∈ cl) : lookupA cl e.1 = e.2.1 := by
  induction cl with
  | nil => cases he
  | cons e0 rest ih =>
      simp only [keysNodup, List.map_cons, List.nodup_cons] at hn
      rcases List.mem_cons.mp he with rfl | hmem
      · simp [lookupA]
      · have hne : e0.1 ≠ e.1 := by
          intro hc
          exact hn.1 (hc ▸ List.mem_map_of_mem (fun x => x.1) hmem)
        simp only [lookupA, if_neg hne]
        exact ih hn.2 hmem

theorem lookupB_of_mem {cl : List CEntry} {e : CEntry}
    (hn : keysNodup cl) (he : e ∈ cl) : lookupB cl e.1 = e.2.2 := by
  induction cl with
  | nil => cases he
  | cons e0 rest ih =>
      simp only [keysNodup, List.map_cons, List.nodup_cons] at hn
      rcases List.mem_cons.mp he with rfl | hmem
      · simp [lookupB]
      · have hne : e0.1 ≠ e.1 := by
          intro hc
          exact hn.1 (hc ▸ List.mem_map_of_mem (fun x => x.1) hmem)
        simp only [lookupB, if_neg hne]
        exact ih hn.2 hmem

theorem orO_none (a : Option Value) : orO a none = a := by
  cases a <;> simp [orO]

/-- Shape of the ComparativeList built by inserting the same pair list
on the A pass and then on the B pass: every entry carries the same A and
B value, namely the last value inserted under its key. -/
theorem entry_self {ps : List (Value × Value)} {e : CEntry}
    (he : e ∈ insertListB (insertListA [] ps) ps) :
    e.2.1 = e.2.2 ∧ ∀ v, e.2.1 = some v → (e.1, v) ∈ ps := by
  have hn : keysNodup (insertListB (insertListA [] ps) ps) :=
    keysNodup_insertListB ps _ (keysNodup_insertListA ps [] (by simp [keysNodup]))
  have hA : lookupA (insertListB (insertListA [] ps) ps) e.1 = lastVal ps e.1 := by
    rw [lookupA_insertListB, lookupA_insertListA]
    simp [lookupA, orO_none]
  have hB : lookupB (insertListB (insertListA [] ps) ps) e.1 = lastVal ps e.1 := by
    rw [lookupB_insertListB, lookupB_insertListA]
    simp [lookupB, orO_none]
  have h1 := lookupA_of_mem hn he
  have h2 := lookupB_of_mem hn he
  constructor
  · rw [← h1, ← h2, hA, hB]
  · intro v hv
    apply lastVal_mem
    rw [← hA, h1]
    exact hv

theorem slicePairs_mem {es : List Value} {k v : Value}
    (h : (k, v) ∈ slicePairs es) : v ∈ es := by
  induction es with
  | nil => simp [slicePairs] at h
  | cons ae rest ih =>
      simp only [slicePairs, List.filterMap_cons] at h
      cases hid : identifier (getFinalValue ae) with
      | none =>
          rw [hid] at h
          exact List.mem_cons_of_mem _ (ih h)
      | some id_ =>
          rw [hid] at h
          rcases List.mem_cons.mp h with hh | hh
          · cases hh; simp
          · exact List.mem_cons_of_mem _ (ih hh)

theorem sliceHas_of_mem {s : List Value} {x : Value} (h : x ∈ s) :
    sliceHas s x = true := by
  simp only [sliceHas, List.any_eq_true]
  exact ⟨x, h, by simp⟩

theorem sz_mem_elems_le {x : Value} {es : List Value} (h : x ∈ es) :
    x.sz ≤ szElems es := by
  induction es with
  | nil => cases h
  | cons y ys ih =>
      rcases List.mem_cons.mp h with rfl | h2
      · simp [szElems]; omega
      · have := ih h2
        simp [szElems]; omega

theorem sz_mem_pairs_le {p : Value × Value} {ps : List (Value × Value)} (h : p ∈ ps) :
    p.2.sz ≤ szPairs ps := by
  induction ps with
  | nil => cases h
  | cons q qs ih =>
      rcases List.mem_cons.mp h with rfl | h2
      · simp [szPairs]; omega
      · have := ih h2
        simp [szPairs]; omega

/-- With pairwise distinct Go field names, FieldByName on the struct
itself returns each field value. -/
theorem fieldByName_self {fs : List (String × String × Value)}
    {f : String × String × Value}
    (hn : (fs.map fun g => g.1).Nodup) (hf : f ∈ fs) :
    fieldByName (.struct_ fs) f.1 = f.2.2 := by
  simp only [fieldByName]
  induction fs with
  | nil => cases hf
  | cons g gs ih =>
      simp only [List.map_cons, List.nodup_cons] at hn
      rcases List.mem_cons.mp hf with rfl | hmem
      · simp [List.find?]
      · have hne : g.1 ≠ f.1 := by
          intro hc
          exact hn.1 (hc ▸ List.mem_map_of_mem (fun x => x.1) hmem)
        have hb : (g.1 == f.1) = false := by simpa using hne
        simp only [List.find?, hb]
        exact ih hn.2 hmem

mutual

/-- Well-formed model value: it contains no invalid kind (a real Go
value never does) and the Go field names of each struct are pairwise
distinct (the Go type system guarantees this). -/
def wfB : Value → Bool
  | .invalid => false
  | .str _ => true
  | .bool _ => true
  | .int _ => true
  | .struct_ fs => decide ((fs.map fun f => f.1).Nodup) && wfFields fs
  | .slice es => wfElems es
  | .map_ ps => wfPairs ps
  | .ptr none => true
  | .ptr (some v) => wfB v
termination_by structural v => v

def wfFields : List (String × String × Value) → Bool
  | [] => true
  | f :: fs => wfB f.2.2 && wfFields fs
termination_by structural fs => fs

def wfElems : List Value → Bool
  | [] => true
  | x :: xs => wfB x && wfElems xs
termination_by structural xs => xs

def wfPairs : List (Value × Value) → Bool
  | [] => true
  | p :: ps => wfB p.1 && wfB p.2 && wfPairs ps
termination_by structural ps => ps

end

theorem wfFields_mem {fs : List (String × String × Value)}
    {f : String × String × Value} (h : wfFields fs = true) (hf : f ∈ fs) :
    wfB f.2.2 = true := by
  induction fs with
  | nil => cases hf
  | cons g gs ih =>
      simp only [wfFields, Bool.and_eq_true] at h
      rcases List.mem_cons.mp hf with rfl | h2
      · exact h.1
      · exact ih h.2 h2

theorem wfElems_mem {es : List Value} {x : Value}
    (h : wfElems es = true) (hx : x ∈ es) : wfB x = true := by
  induction es with
  | nil => cases hx
  | cons y ys ih =>
      simp only [wfElems, Bool.and_eq_true] at h
      rcases List.mem_cons.mp hx with rfl | h2
      · exact h.1
      · exact ih h.2 h2

theorem wfPairs_mem {ps : List (Value × Value)} {p : Value × Value}
    (h : wfPairs ps = true) (hp : p ∈ ps) : wfB p.2 = true := by
  induction ps with
  | nil => cases hp
  | cons q qs ih =>
      simp only [wfPairs, Bool.and_eq_true] at h
      rcases List.mem_cons.mp hp with rfl | h2
      · exact h.1.2
      · exact ih h.2 h2

/-- Reconciling a ComparativeList whose entries all carry equal A and B
sides, with those values diffing cleanly against themselves, produces no
changes and no error. -/
theorem diffComparative_of_entries (path : List String) :
    ∀ ents : List CEntry,
    (∀ e ∈ ents, e.2.1 = e.2.2 ∧
      ∀ v, e.2.1 = some v → diff (path ++ [idstring e.1]) v v = ([], none)) →
    diffComparative path ents = ([], none) := by
  intro ents
  induction ents with
  | nil => intro _; simp [diffComparative]
  | cons e rest ih =>
      intro hprop
      obtain ⟨heq, hv⟩ := hprop e (List.mem_cons_self e rest)
      have hrest := fun e2 h2 => hprop e2 (List.mem_cons_of_mem e h2)
      obtain ⟨k, A, B⟩ := e
      cases A with
      | none =>
          have hB : B = none := by simpa using heq.symm
          subst hB
          simp only [diffComparative]
          exact ih hrest
      | some v =>
          have hB : B = some v := by simpa using heq.symm
          subst hB
          simp only [diffComparative]
          rw [hv v rfl]
          simp [ih hrest]

/-- Reconciling a ComparativeList built from the same pair list on both
sides produces no changes and no error, provided diffing each stored
value against itself does. -/
theorem diffComparative_insert_self (path : List String) (ps : List (Value × Value))
    (hrec : ∀ k v, (k, v) ∈ ps → diff (path ++ [idstring k]) v v = ([], none)) :
    diffComparative path (insertListB (insertListA [] ps) ps) = ([], none) := by
  apply diffComparative_of_entries
  intro e he
  have h2 := entry_self he
  exact ⟨h2.1, fun v hv => hrec e.1 v (h2.2 v hv)⟩

/-- Diffing any well-formed value against itself produces an empty
changelog and no error; induction on the size bound n. -/
theorem diff_self : ∀ n : Nat, ∀ a : Value, a.sz ≤ n → wfB a = true →
    ∀ path, diff path a a = ([], none) := by
  intro n
  induction n with
  | zero =>
      intro a hsz hwf path
      have := one_le_sz a
      omega
  | succ n IH =>
      intro a hsz hwf path
      cases a with
      | invalid => simp [wfB] at hwf
      | str s => simp [diff, Value.kind, diffString]
      | bool b => simp [diff, Value.kind, diffBool]
      | int i => simp [diff, Value.kind, diffInt]
      | ptr o =>
          cases o with
          | none => simp [diff, Value.kind, diffPtr]
          | some v =>
              have hvs : v.sz ≤ n := by
                simp only [Value.sz] at hsz
                omega
              have hwv : wfB v = true := by simpa [wfB] using hwf
              simp only [diff, Value.kind, diffPtr, bne_self_eq_false, Bool.false_eq_true,
                if_false]
              exact IH v hvs hwv path
      | struct_ fs =>
          simp only [wfB, Bool.and_eq_true, decide_eq_true_eq] at hwf
          simp only [diff, Value.kind, bne_self_eq_false, Bool.false_eq_true, if_false,
            diffStruct]
          have key : ∀ fs2 : List (String × String × Value), (∀ f ∈ fs2, f ∈ fs) →
              diffStructFields path fs2 (.struct_ fs) = ([], none) := by
            intro fs2
            induction fs2 with
            | nil => intro _; simp [diffStructFields]
            | cons f rest ih =>
                intro hsub
                have hf : f ∈ fs := hsub f (List.mem_cons_self f rest)
                have hrest := fun g hg => hsub g (List.mem_cons_of_mem f hg)
                simp only [diffStructFields]
                cases ht : (tagName f.2.1 == "-") with
                | true => simp [ht, ih hrest]
                | false =>
                    have hfb := fieldByName_self hwf.1 hf
                    have hfs : f.2.2.sz ≤ n := by
                      have h1 := sz_mem_fields_le hf
                      simp only [Value.sz] at hsz
                      omega
                    have hwff := wfFields_mem hwf.2 hf
                    have hd := IH f.2.2 hfs hwff (path ++ [tagName f.2.1])
                    simp [ht, hfb, hd, ih hrest]
          exact key fs (fun f hf => hf)
      | slice es =>
          simp only [wfB] at hwf
          simp only [diff, Value.kind, bne_self_eq_false, Bool.false_eq_true, if_false,
            diffSlice]
          cases hc : comparative es es with
          | false =>
              have hdel : ∀ (i : Nat) (es2 : List Value), (∀ x ∈ es2, x ∈ es) →
                  genDeletes path es i es2 = [] := by
                intro i es2
                induction es2 generalizing i with
                | nil => intro _; simp [genDeletes]
                | cons x xs ih =>
                    intro hsub
                    have hx := sliceHas_of_mem (hsub x (List.mem_cons_self x xs))
                    simp [genDeletes, hx,
                      ih (i + 1) (fun y hy => hsub y (List.mem_cons_of_mem x hy))]
              have hcre : ∀ (i : Nat) (es2 : List Value), (∀ x ∈ es2, x ∈ es) →
                  genCreates path es i es2 = [] := by
                intro i es2
                induction es2 generalizing i with
                | nil => intro _; simp [genCreates]
                | cons x xs ih =>
                    intro hsub
                    have hx := sliceHas_of_mem (hsub x (List.mem_cons_self x xs))
                    simp [genCreates, hx,
                      ih (i + 1) (fun y hy => hsub y (List.mem_cons_of_mem x hy))]
              simp [hc, diffSliceGeneric, hdel 0 es (fun x hx => hx),
                hcre 0 es (fun x hx => hx)]
          | true =>
              simp only [hc, if_true, diffSliceComparative,
                buildSliceA_eq_insertListA, buildSliceB_eq_insertListB]
              apply diffComparative_insert_self
              intro k v hm
              have hves : v ∈ es := slicePairs_mem hm
              have hvs : v.sz ≤ n := by
                have h1 := sz_mem_elems_le hves
                simp only [Value.sz] at hsz
                omega
              exact IH v hvs (wfElems_mem hwf hves) _
      | map_ ps =>
          simp only [wfB] at hwf
          simp only [diff, Value.kind, bne_self_eq_false, Bool.false_eq_true, if_false,
            diffMap, buildMapA_eq_insertListA, buildMapB_eq_insertListB]
          apply diffComparative_insert_self
          intro k v hm
          have hvs : v.sz ≤ n := by
            have h1 : v.sz ≤ szPairs ps := by simpa using sz_mem_pairs_le hm
            simp only [Value.sz] at hsz
            omega
          exact IH v hvs (wfPairs_mem hwf hm) _

theorem genCreates_mem (path : List String) (as_ : List Value) :
    ∀ (bs : List Value) (start i : Nat) (hi : i < bs.length),
    sliceHas as_ bs[i] = false →
    (⟨CREATE, path ++ [toString (start + i)], none, some bs[i]⟩ : Change) ∈
      genCreates path as_ start bs := by
  intro bs
  induction bs with
  | nil => intro start i hi; simp at hi
  | cons b rest ih =>
      intro start i hi hhas
      cases i with
      | zero =>
          simp only [List.getElem_cons_zero] at hhas
          simp [genCreates, hhas]
      | succ j =>
          have hj : j < rest.length := by simpa using hi
          have hb : (b :: rest)[j + 1] = rest[j] := by simp
          rw [hb] at hhas ⊢
          have hmem := ih (start + 1) j hj hhas
          have harith : start + 1 + j = start + (j + 1) := by omega
          rw [harith] at hmem
          simp only [genCreates]
          exact List.mem_append_right _ hmem

theorem genDeletes_mem (path : List String) (bs : List Value) :
    ∀ (as_ : List Value) (start i : Nat) (hi : i < as_.length),
    sliceHas bs as_[i] = false →
    (⟨DELETE, path ++ [toString (start + i)], some as_[i], none⟩ : Change) ∈
      genDeletes path bs start as_ := by
  intro as_
  induction as_ with
  | nil => intro start i hi; simp at hi
  | cons a rest ih =>
      intro start i hi hhas
      cases i with
      | zero =>
          simp only [List.getElem_cons_zero] at hhas
          simp [genDeletes, hhas]
      | succ j =>
          have hj : j < rest.length := by simpa using hi
          have hb : (a :: rest)[j + 1] = rest[j] := by simp
          rw [hb] at hhas ⊢
          have hmem := ih (start + 1) j hj hhas
          have harith : start + 1 + j = start + (j + 1) := by omega
          rw [harith] at hmem
          simp only [genDeletes]
          exact List.mem_append_right _ hmem

/-- C1 confirmed: For every value a of a supported kind (struct, slice,
string, bool, int, map, or pointer thereof), Diff(a, a) returns an empty
Changelog and a nil error.  Well-formedness says exactly that the value
is built from the supported kinds (no invalid kind inside) and that Go
struct field names are distinct, which the Go type system guarantees. -/
theorem c1_diff_self_empty (a : Value) (h : wfB a = true) : Diff a a = ([], none) :=
  diff_self a.sz a le_rfl h []

theorem c1_diff_self_empty_witness :
    wfB (Value.struct_ [("Name", "name,identifier", .str ("one")),
      ("Value", "value", .int 3),
      ("Items", "items", .slice [.int 1, .int 2]),
      ("Ref", "ref", .ptr (some (.map_ [(.str ("k"), .bool true)])))]) = true ∧
    Diff (Value.struct_ [("Name", "name,identifier", .str ("one")),
      ("Value", "value", .int 3),
      ("Items", "items", .slice [.int 1, .int 2]),
      ("Ref", "ref", .ptr (some (.map_ [(.str ("k"), .bool true)])))])
      (Value.struct_ [("Name", "name,identifier", .str ("one")),
      ("Value", "value", .int 3),
      ("Items", "items", .slice [.int 1, .int 2]),
      ("Ref", "ref", .ptr (some (.map_ [(.str ("k"), .bool true)])))]) = ([], none) :=
  ⟨by decide, c1_diff_self_empty _ (by decide)⟩

/-- C2 confirmed: For every pair of inputs whose fundamental kinds
differ, Diff returns the type-mismatch error and aborts the whole call:
the returned Changelog is empty, no change having been produced.  The
v1 engine has no mismatch-tolerance configuration; the dispatcher
rejects differing kinds before emitting anything
(src/diff.go lines 48-53). -/
theorem c2_type_mismatch_aborts (a b : Value) (h : a.kind ≠ b.kind) :
    Diff a b = ([], some .typeMismatch) := by
  have hb : (a.kind != b.kind) = true := by simpa using h
  unfold Diff
  rw [diff.eq_def]
  simp [hb]

theorem c2_type_mismatch_aborts_witness :
    (Value.int 1).kind ≠ (Value.str ("1")).kind ∧
    Diff (.int 1) (.str ("1")) = ([], some .typeMismatch) :=
  ⟨by decide, c2_type_mismatch_aborts _ _ (by decide)⟩

/-- C3 counterexample: the claim asserts that duplicate values are
matched once each.  Under that reading, Diff([]int{1}, []int{1,1}) must
produce one CREATE at path 1 for the unmatched duplicate (this is what
the later v3 test slice-duplicate-items in src/diff.go expects).  The
cited v1 code (src/unnamed/part_005 sliceHas) tests membership by
existence, so the duplicate matches the same element again and the
changelog is empty. -/
theorem c3_counterexample :
    Diff (.slice [.int 1]) (.slice [.int 1, .int 1]) = ([], none) := by
  simp [Diff, diff, Value.kind, diffSlice, comparative, getFinalValue, identifier,
    diffSliceGeneric, genDeletes, genCreates, sliceHas]

/-- C3 corrected (amended): Diff([]int{1,2,3}, []int{1,2,3,4}) returns
exactly one Change, a CREATE at path 3 with From nil and To 4; and in
general for the unordered (default) slice comparison, an element value
present in the right slice but absent by deep value-equality from the
left slice yields a CREATE at its right-index path, and an element
present only in the left slice yields a DELETE at its left-index path.
Presence is tested by existence anywhere on the other side (sliceHas),
so duplicate occurrences of a value present on both sides yield no
change at all; duplicates are not matched once each. -/
theorem c3_slice_generic_create_delete :
    (Diff (.slice [.int 1, .int 2, .int 3]) (.slice [.int 1, .int 2, .int 3, .int 4]) =
      ([⟨CREATE, ["3"], none, some (.int 4)⟩], none)) ∧
    (∀ (path : List String) (as_ bs : List Value) (i : Nat) (hi : i < bs.length),
      sliceHas as_ bs[i] = false →
      (⟨CREATE, path ++ [toString i], none, some bs[i]⟩ : Change) ∈
        (diffSliceGeneric path as_ bs).1) ∧
    (∀ (path : List String) (as_ bs : List Value) (i : Nat) (hi : i < as_.length),
      sliceHas bs as_[i] = false →
      (⟨DELETE, path ++ [toString i], some as_[i], none⟩ : Change) ∈
        (diffSliceGeneric path as_ bs).1) := by
  refine ⟨?_, ?_, ?_⟩
  · simp [Diff, diff, Value.kind, diffSlice, comparative, getFinalValue, identifier,
      diffSliceGeneric, genDeletes, genCreates, sliceHas]
    rfl
  · intro path as_ bs i hi hhas
    have := genCreates_mem path as_ bs 0 i hi hhas
    simp only [Nat.zero_add] at this
    simp only [diffSliceGeneric]
    exact List.mem_append_right _ this
  · intro path as_ bs i hi hhas
    have := genDeletes_mem path bs as_ 0 i hi hhas
    simp only [Nat.zero_add] at this
    simp only [diffSliceGeneric]
    exact List.mem_append_left _ this

theorem c3_slice_generic_create_delete_witness :
    ((⟨CREATE, ["1"], none, some (.int 9)⟩ : Change) ∈
      (diffSliceGeneric [] [.int 7] [.int 7, .int 9]).1) ∧
    ((⟨DELETE, ["0"], some (.int 5), none⟩ : Change) ∈
      (diffSliceGeneric [] [.int 5] [.int 8]).1) :=
  ⟨c3_slice_generic_create_delete.2.1 [] [.int 7] [.int 7, .int 9] 1 (by decide)
      (by decide),
    c3_slice_generic_create_delete.2.2 [] [.int 5] [.int 8] 0 (by decide) (by decide)⟩

theorem getFinalValue_of_struct {x : Value} (h : x.kind = .struct_) :
    getFinalValue x = x := by
  cases x <;> first | rfl | simp [Value.kind] at h

/-- With pairwise distinct keys, the last value stored under a key does
not depend on the order of the insertion pass. -/
theorem lastVal_perm_nodup {ps qs : List (Value × Value)} (h : ps.Perm qs)
    (hn : (ps.map (fun p => p.1)).Nodup) (k : Value) :
    lastVal ps k = lastVal qs k := by
  induction h with
  | nil => rfl
  | cons x h ih =>
      simp only [List.map_cons, List.nodup_cons] at hn
      simp only [lastVal, ih hn.2]
  | swap x y l =>
      simp only [List.map_cons, List.nodup_cons, List.mem_cons] at hn
      have hxy : y.1 ≠ x.1 := fun hc => hn.1 (Or.inl hc)
      simp only [lastVal]
      cases hl : lastVal l k with
      | some v => simp
      | none =>
          by_cases hx : x.1 = k
          · have hy : ¬(y.1 = k) := fun hc => hxy (by rw [hc, hx])
            simp [hx, hy]
          · by_cases hy : y.1 = k <;> simp [hx, hy]
  | trans h1 h2 ih1 ih2 =>
      have hn2 := ((h1.map (fun p => p.1)).nodup_iff).mp hn
      rw [ih1 hn, ih2 hn2]

/-- C4 counterexample: the claim quantifies over all permutations of
identifier-bearing slices, including slices in which two distinct
elements share the same identifier key.  There the upsert into the
ComparativeList keeps only the last element per side, the two sides
keep different survivors, and the diff of the survivors is not empty,
although the right slice is a permutation of the left one. -/
theorem c4_counterexample :
    ([Value.struct_ [("Name", "name,identifier", .str ("x")),
        ("Value", "value", .int 2)],
      Value.struct_ [("Name", "name,identifier", .str ("x")),
        ("Value", "value", .int 1)]] : List Value).Perm
      [Value.struct_ [("Name", "name,identifier", .str ("x")),
        ("Value", "value", .int 1)],
       Value.struct_ [("Name", "name,identifier", .str ("x")),
        ("Value", "value", .int 2)]] ∧
    Diff
      (.slice [Value.struct_ [("Name", "name,identifier", .str ("x")),
          ("Value", "value", .int 1)],
        Value.struct_ [("Name", "name,identifier", .str ("x")),
          ("Value", "value", .int 2)]])
      (.slice [Value.struct_ [("Name", "name,identifier", .str ("x")),
          ("Value", "value", .int 2)],
        Value.struct_ [("Name", "name,identifier", .str ("x")),
          ("Value", "value", .int 1)]]) =
      ([⟨UPDATE, ["x", "value"], some (.int 2), some (.int 1)⟩], none) := by
  constructor
  · decide
  · have hs1 : splitOnComma ("name,identifier") = ["name", "identifier"] := by decide
    have hs2 : splitOnComma ("value") = ["value"] := by decide
    simp [Diff, diff, Value.kind, diffSlice, comparative, getFinalValue, identifier,
      identifierFields, diffSliceComparative, buildSliceA, buildSliceB, addA, addB,
      diffComparative, idstring, diffStruct, diffStructFields, tagName, fieldByName,
      diffString, diffInt, List.find?, hs1, hs2]

/-- C4 corrected (amended): for two slices of well-formed
identifier-bearing struct elements whose identifier keys are pairwise
distinct within the left slice, if the right slice is a permutation of
the left one then Diff returns an empty Changelog and no error,
regardless of positional order.  The distinct-keys hypothesis is what
the counterexample forces: with duplicate identifier keys the upsert
keeps a different survivor on each side and the changelog is not
empty. -/
theorem c4_perm_empty (as_ bs : List Value)
    (hstruct : ∀ x ∈ as_, x.kind = .struct_ ∧ (identifier x).isSome = true)
    (hperm : bs.Perm as_)
    (hwf : wfElems as_ = true)
    (hnodup : ((slicePairs as_).map (fun p => p.1)).Nodup) :
    Diff (.slice as_) (.slice bs) = ([], none) := by
  cases has : as_ with
  | nil =>
      have hbs : bs = [] := List.Perm.eq_nil (has ▸ hperm)
      subst hbs
      subst has
      simp [Diff, diff, Value.kind, diffSlice, comparative, diffSliceGeneric,
        genDeletes, genCreates]
  | cons a0 rest =>
      rw [← has]
      have ha0 : a0 ∈ as_ := by rw [has]; exact List.mem_cons_self a0 rest
      have h0 := hstruct a0 ha0
      have hcomp : comparative as_ bs = true := by
        rw [has]
        simp only [comparative, getFinalValue_of_struct h0.1]
        simp [h0.1, h0.2]
      have hpairsperm : (slicePairs bs).Perm (slicePairs as_) := hperm.filterMap _
      simp only [Diff, diff, Value.kind, bne_self_eq_false, Bool.false_eq_true,
        if_false, diffSlice, hcomp, if_true, diffSliceComparative,
        buildSliceA_eq_insertListA, buildSliceB_eq_insertListB]
      apply diffComparative_of_entries
      intro e he
      have hn : keysNodup (insertListB (insertListA [] (slicePairs as_)) (slicePairs bs)) :=
        keysNodup_insertListB _ _ (keysNodup_insertListA _ [] (by simp [keysNodup]))
      have h1 := lookupA_of_mem hn he
      have h2 := lookupB_of_mem hn he
      have hA : lookupA (insertListB (insertListA [] (slicePairs as_)) (slicePairs bs)) e.1 =
          lastVal (slicePairs as_) e.1 := by
        rw [lookupA_insertListB, lookupA_insertListA]
        simp [lookupA, orO_none]
      have hB : lookupB (insertListB (insertListA [] (slicePairs as_)) (slicePairs bs)) e.1 =
          lastVal (slicePairs bs) e.1 := by
        rw [lookupB_insertListB, lookupB_insertListA]
        simp [lookupB, orO_none]
      have hkeysB : ((slicePairs bs).map (fun p => p.1)).Nodup :=
        ((hpairsperm.map (fun p => p.1)).nodup_iff).mpr hnodup
      have heqlast : lastVal (slicePairs bs) e.1 = lastVal (slicePairs as_) e.1 :=
        lastVal_perm_nodup hpairsperm hkeysB e.1
      constructor
      · rw [← h1, ← h2, hA, hB, heqlast]
      · intro v hv
        have hvA : lastVal (slicePairs as_) e.1 = some v := by
          rw [← hA, h1]; exact hv
        have hves : v ∈ as_ := slicePairs_mem (lastVal_mem hvA)
        exact diff_self v.sz v le_rfl (wfElems_mem hwf hves) _

theorem c4_perm_empty_witness :
    Diff
      (.slice [Value.struct_ [("Name", "name,identifier", .str ("one")),
          ("Value", "value", .int 1)],
        Value.struct_ [("Name", "name,identifier", .str ("two")),
          ("Value", "value", .int 2)]])
      (.slice [Value.struct_ [("Name", "name,identifier", .str ("two")),
          ("Value", "value", .int 2)],
        Value.struct_ [("Name", "name,identifier", .str ("one")),
          ("Value", "value", .int 1)]]) = ([], none) :=
  c4_perm_empty _ _ (by decide) (by decide) (by decide) (by decide)

/-- The changes contributed by a single ComparativeList entry during
reconciliation (one iteration of the loop in src/unnamed/part_005 lines
104-122). -/
def entryBlock (path : List String) (e : CEntry) : Changelog × Option DiffError :=
  match e with
  | (k, some av, none) => ([⟨DELETE, path ++ [idstring k], some av, none⟩], none)
  | (k, none, some bv) => ([⟨CREATE, path ++ [idstring k], none, some bv⟩], none)
  | (k, some av, some bv) => diff (path ++ [idstring k]) av bv
  | (_, none, none) => ([], none)

theorem diffComparative_eq_flatten (path : List String) :
    ∀ ents : List CEntry, (∀ e ∈ ents, (entryBlock path e).2 = none) →
    diffComparative path ents =
      ((ents.map (fun e => (entryBlock path e).1)).flatten, none) := by
  intro ents
  induction ents with
  | nil => intro _; simp [diffComparative]
  | cons e rest ih =>
      intro herr
      have he := herr e (List.mem_cons_self e rest)
      have hrest := fun e2 h2 => herr e2 (List.mem_cons_of_mem e h2)
      obtain ⟨k, A, B⟩ := e
      cases A with
      | none =>
          cases B with
          | none => simp [diffComparative, ih hrest, entryBlock]
          | some bv => simp [diffComparative, ih hrest, entryBlock]
      | some av =>
          cases B with
          | none => simp [diffComparative, ih hrest, entryBlock]
          | some bv =>
              simp only [entryBlock] at he
              simp only [diffComparative]
              cases hr : diff (path ++ [idstring k]) av bv with
              | mk cl err =>
                  rw [hr] at he
                  simp only at he
                  subst he
                  simp [ih hrest, entryBlock, hr]

theorem perm_flatten {α : Type} {l1 l2 : List (List α)} (h : l1.Perm l2) :
    l1.flatten.Perm l2.flatten := by
  induction h with
  | nil => exact List.Perm.refl _
  | cons x h ih => simpa using ih.append_left x
  | swap x y l =>
      simp only [List.flatten_cons, ← List.append_assoc]
      exact (List.perm_append_comm).append_right _
  | trans h1 h2 ih1 ih2 => exact ih1.trans ih2

/-- C8 counterexample: the ComparativeList of the cited code is a Go
map and both the identifier and the map reconciliation loops range over
it (src/unnamed/part_005 line 104, src/unnamed/part_001); Go map
iteration order is unspecified and varies between runs.  Modelling one
run as one iteration order, here are two orders of the same two-entry
ComparativeList, each a permutation of the other and therefore both
realizable as a run, whose changelogs differ in order: the claimed
insertion-order stability does not hold for this code. -/
theorem c8_counterexample :
    ([((Value.str ("k1")), some (Value.int 1), (none : Option Value)),
      ((Value.str ("k2")), (none : Option Value), some (Value.int 2))] : List CEntry).Perm
      [((Value.str ("k2")), (none : Option Value), some (Value.int 2)),
       ((Value.str ("k1")), some (Value.int 1), (none : Option Value))] ∧
    (diffComparative []
      [((Value.str ("k1")), some (Value.int 1), (none : Option Value)),
       ((Value.str ("k2")), (none : Option Value), some (Value.int 2))]).1 =
      [⟨DELETE, ["k1"], some (.int 1), none⟩, ⟨CREATE, ["k2"], none, some (.int 2)⟩] ∧
    (diffComparative []
      [((Value.str ("k2")), (none : Option Value), some (Value.int 2)),
       ((Value.str ("k1")), some (Value.int 1), (none : Option Value))]).1 =
      [⟨CREATE, ["k2"], none, some (.int 2)⟩, ⟨DELETE, ["k1"], some (.int 1), none⟩] ∧
    ([⟨DELETE, ["k1"], some (.int 1), none⟩, ⟨CREATE, ["k2"], none, some (.int 2)⟩] :
        Changelog) ≠
      [⟨CREATE, ["k2"], none, some (.int 2)⟩, ⟨DELETE, ["k1"], some (.int 1), none⟩] := by
  refine ⟨by decide, ?_, ?_, by decide⟩
  · simp [diffComparative, idstring]
  · simp [diffComparative, idstring]

/-- C8 corrected (amended): the contents of the changelog produced by
reconciling a ComparativeList are stable across iteration orders: for
any two iteration orders that are permutations of each other, when no
entry aborts with an error, the two runs emit permutations of the same
changes.  Identical ordering is not guaranteed by the cited code, which
ranges over a Go map; the keys-based diffComparative of
src/unnamed/part_004 iterates an insertion-ordered key list instead and
restores full determinism. -/
theorem c8_reconcile_perm_stable (path : List String) (l1 l2 : List CEntry)
    (hperm : l1.Perm l2)
    (herr : ∀ e ∈ l1, (entryBlock path e).2 = none) :
    (diffComparative path l1).1.Perm (diffComparative path l2).1 := by
  have herr2 : ∀ e ∈ l2, (entryBlock path e).2 = none :=
    fun e he => herr e (hperm.mem_iff.mpr he)
  rw [diffComparative_eq_flatten path l1 herr, diffComparative_eq_flatten path l2 herr2]
  exact perm_flatten (hperm.map _)

theorem c8_reconcile_perm_stable_witness :
    (diffComparative []
      [((Value.str ("a")), some (Value.int 1), (none : Option Value)),
       ((Value.str ("b")), (none : Option Value), some (Value.int 2))]).1.Perm
    (diffComparative []
      [((Value.str ("b")), (none : Option Value), some (Value.int 2)),
       ((Value.str ("a")), some (Value.int 1), (none : Option Value))]).1 :=
  c8_reconcile_perm_stable [] _ _ (by decide) (by decide)

/-- identifier as compiled in src/diff.go lines 101-116: the guard is
len(parts) < 1, which never holds because strings.Split returns at
least one token, so the subsequent parts[1] access is out of range
whenever the tag splits into a single token.  The Go runtime panic is
modelled as an Except error. -/
def identifierDiffGo : List (String × String × Value) → Except String (Option Value)
  | [] => .ok none
  | f :: rest =>
      let parts := splitOnComma f.2.1
      if parts.length < 1 then identifierDiffGo rest
      else if parts.length < 2 then .error ("runtime error: index out of range")
      else if parts.getD 1 ("") == "identifier" then .ok (some f.2.2)
      else identifierDiffGo rest

/-- C10 code_bug: extracting the reconciliation identifier should be
total, accessing the second tag token only when the tag splits into at
least two tokens, so that a field tagged only with a name (for example
diff tag value) yields identifier nil.  The copy in
src/unnamed/part_006 lines 118-133 guards with len(parts) < 2 and is
total, but the copy in src/diff.go lines 101-116 guards with
len(parts) < 1 (always false) and panics with an out-of-range access on
any single-token tag.  The repository's own tests diff structs with
single-token tags (tuistruct, field tagged value, src/diff.go test
section), which that copy cannot process. -/
theorem c10_identifier_single_token_tag :
    identifierDiffGo [("Value", "value", .int 5)] =
      .error ("runtime error: index out of range") ∧
    identifier (.struct_ [("Value", "value", .int 5)]) = none := by
  constructor
  · rfl
  · rfl

/-! Embedding of the standalone patch engine, src/patch.go and
src/change_value.go. -/

/-- PatchFlags, src/change_value.go lines 9-20, as one Bool per bit. -/
structure PatchFlags where
  optionCreate : Bool := false
  optionOmitUnequal : Bool := false
  flagInvalidTarget : Bool := false
  flagApplied : Bool := false
  flagFailed : Bool := false
  flagCreated : Bool := false
  flagIgnored : Bool := false
  flagDeleted : Bool := false
  flagUpdated : Bool := false
  deriving DecidableEq, Repr

/-- ChangeValue, src/change_value.go lines 22-30: the patch cursor.
val is modelled by cur together with put, which writes a replacement
for the cursor location back into the root pointee; canSet mirrors
reflect CanSet of the cursor. -/
structure ChangeValue where
  cur : Value
  put : Value → Value
  canSet : Bool
  flags : PatchFlags
  change : Change
  err : Option String
  index : Int
  key : Option Value

/-- PatchLogEntry, src/change_value.go lines 32-39.  Errors is a single
chained error; AddError overwrites the previous one (c.err = err), so
the model keeps the last message. -/
structure PatchLogEntry where
  path : List String
  fromv : Option Value
  tov : Option Value
  flags : PatchFlags
  err : Option String
  deriving DecidableEq

/-- NewPatchLogEntry, src/change_value.go lines 50-59. -/
def NewPatchLogEntry (cv : ChangeValue) : PatchLogEntry :=
  { path := cv.change.path, fromv := cv.change.fromv, tov := cv.change.tov,
    flags := cv.flags, err := cv.err }

/-- The spec field-metadata option lookup.  Modelled from the spec:
src/patch.go calls a two-argument tagName and a hasTagOption helper
that are not in src/; spec section 6 defines the tag as a
comma-separated list whose first token is the external name followed by
option tokens. -/
def hasTagOption (tag opt : String) : Bool :=
  ((splitOnComma tag).drop 1).contains opt

-- reflect.Zero of the type of a model value (cv.Set(reflect.Zero(...))
-- in deleteOperation).  Zero of a slice or map type is the nil
-- slice/map, of a pointer the nil pointer, of a struct the fieldwise
-- zero.  Type() panics on an invalid value, but that branch is
-- unreachable behind the CanSet check.
mutual

def zeroOf : Value → Value
  | .invalid => .invalid
  | .str _ => .str ("")
  | .bool _ => .bool false
  | .int _ => .int 0
  | .struct_ fs => .struct_ (zeroFieldsOf fs)
  | .slice _ => .slice []
  | .map_ _ => .map_ []
  | .ptr _ => .ptr none
termination_by structural v => v

def zeroFieldsOf : List (String × String × Value) → List (String × String × Value)
  | [] => []
  | f :: fs => (f.1, f.2.1, zeroOf f.2.2) :: zeroFieldsOf fs
termination_by structural fs => fs

end

/-- reflect.Value.SetMapIndex with a valid value: upsert preserving
position, appending a new key at the end (Go map insertion order in the
model). -/
def mapSet (ps : List (Value × Value)) (k v : Value) : List (Value × Value) :=
  match ps with
  | [] => [(k, v)]
  | p :: rest => if p.1 = k then (k, v) :: rest else p :: mapSet rest k v

/-- reflect.Value.SetMapIndex with the zero Value: delete the key. -/
def mapRemove (ps : List (Value × Value)) (k : Value) : List (Value × Value) :=
  match ps with
  | [] => []
  | p :: rest => if p.1 = k then rest else p :: mapRemove rest k

/-- reflect.Value.IsNil on a map cursor.  The model does not
distinguish nil maps from empty maps, so this is always false; the
nil-map branches of the operations are embedded but not exercised. -/
def isNilMap (_v : Value) : Bool := false

/-- ChangeValue.Set, src/change_value.go lines 107-118: a reflect Set
guarded by its own recover that turns a panic (invalid value, or
unassignable type, modelled as a kind mismatch) into FlagFailed; on
success the value is written and FlagApplied set. -/
def cvSet (cur : Value) (flags : PatchFlags) (value : Value) :
    Value × PatchFlags :=
  if value.kind = .invalid ∨ value.kind ≠ cur.kind then
    (cur, { flags with flagFailed := true })
  else
    (value, { flags with flagApplied := true })

/-- The comparison reflect.DeepEqual(x, cv.change.From) in the fallback
scans of deleteOperation (src/patch.go line 170) and updateOperation
(line 223).  x there is the reflect.Value box itself, not
x.Interface(): DeepEqual first compares dynamic types, and a
reflect.Value box never equals a diff-produced From value, so the
comparison is false for every representable input. -/
def deepEqualValueBox (_x : Value) (_fromv : Option Value) : Bool := false

/-- reflect.DeepEqual(x.Interface(), cv.change.From) with From an
interface value that may be nil. -/
def deepEqualFrom (x : Value) (fromv : Option Value) : Bool :=
  match fromv with
  | some f => x == f
  | none => false

/-- deleteOperation, src/patch.go lines 155-205.  The error result
models a panic escaping to the recover in patch (an Index call with a
negative index), carrying the flags and error at that point.  On the
slice path: a negative index panics (Len() is always greater than a
negative index); the element at the recorded index is compared with
From via DeepEqual on interfaces; on match the element is removed by
overwriting it with the last element and shrinking by one and
FlagDeleted is set; otherwise the fallback scan compares the
reflect.Value box itself (deepEqualValueBox, always false), never
retargets, and the entry is marked FlagIgnored with an error. -/
def deleteOperation (cv : ChangeValue) :
    Except (PatchFlags × Option String) (Value × PatchFlags × Option String) :=
  match cv.cur with
  | .slice elems =>
      if cv.index < 0 then .error (cv.flags, cv.err)
      else
        let x0 := elems.get? cv.index.toNat
        let direct : Bool :=
          match x0 with
          | some x => deepEqualFrom x cv.change.fromv
          | none => false
        if direct then
          .ok (.slice ((elems.set cv.index.toNat (elems.getLastD .invalid)).take
                (elems.length - 1)),
            { cv.flags with flagDeleted := true }, cv.err)
        else
          .ok (.slice elems, { cv.flags with flagIgnored := true },
            some ("Unable to find matching slice index entry"))
  | .map_ ps =>
      if ¬(deepEqualFrom (.map_ ps) cv.change.fromv) ∧ cv.flags.optionOmitUnequal then
        .ok (.map_ ps, { cv.flags with flagIgnored := true },
          some ("target change doesn't match original"))
      else if isNilMap (.map_ ps) then
        .ok (.map_ ps, { cv.flags with flagIgnored := true },
          some ("target has nil map nothing to delete"))
      else
        match cv.key with
        | some k =>
            .ok (.map_ (mapRemove ps k), { cv.flags with flagDeleted := true }, cv.err)
        | none =>
            .ok (.map_ ps,
              { cv.flags with flagDeleted := true, flagFailed := true }, cv.err)
  | cur =>
      let r := cvSet cur cv.flags (zeroOf cur)
      .ok (r.1, { r.2 with flagDeleted := true }, cv.err)

/-- updateOperation, src/patch.go lines 208-272, for UPDATE and CREATE
changes; same panic modelling as deleteOperation.  On the slice path a
direct From match overwrites in place through a raw reflect Set (a nil
or differently-kinded To panics to the outer recover); with no match,
CREATE plus the allow-create option appends To; otherwise the entry is
ignored.  The fallback scan error (value index invalid) survives into
the append path because AddError overwrites err only again on the
ignored path. -/
def updateOperation (cv : ChangeValue) :
    Except (PatchFlags × Option String) (Value × PatchFlags × Option String) :=
  match cv.cur with
  | .slice elems =>
      if cv.index < 0 then .error (cv.flags, cv.err)
      else
        let x0 := elems.get? cv.index.toNat
        let direct : Bool :=
          match x0 with
          | some x => deepEqualFrom x cv.change.fromv
          | none => false
        let err1 : Option String :=
          if direct then cv.err
          else if cv.flags.optionOmitUnequal then cv.err
          else some ("value index is invalid")
        if direct then
          match cv.change.tov with
          | none => .error (cv.flags, err1)
          | some tv2 =>
              match x0 with
              | some x =>
                  if tv2.kind ≠ x.kind then .error (cv.flags, err1)
                  else .ok (.slice (elems.set cv.index.toNat tv2),
                    { cv.flags with flagUpdated := true }, err1)
              | none => .error (cv.flags, err1)
        else if cv.flags.optionCreate ∧ cv.change.type == CREATE then
          match cv.change.tov with
          | none => .error (cv.flags, err1)
          | some tv2 =>
              let r := cvSet (.slice elems) cv.flags (.slice (elems ++ [tv2]))
              .ok (r.1, { r.2 with flagCreated := true }, err1)
        else
          .ok (.slice elems, { cv.flags with flagIgnored := true },
            some ("Unable to find matching slice index entry"))
  | .map_ ps =>
      if ¬(deepEqualFrom (.map_ ps) cv.change.fromv) ∧ cv.flags.optionOmitUnequal then
        .ok (.map_ ps, { cv.flags with flagIgnored := true },
          some ("target change doesn't match original"))
      else if isNilMap (.map_ ps) then
        if cv.flags.optionCreate then
          match cv.key, cv.change.tov with
          | some k, some tv2 =>
              .ok (.map_ (mapSet [] k tv2), { cv.flags with flagCreated := true }, cv.err)
          | _, _ => .ok (.map_ ps, { cv.flags with flagFailed := true }, cv.err)
        else
          .ok (.map_ ps, { cv.flags with flagIgnored := true },
            some ("target has nil map and create not set"))
      else
        match cv.key with
        | some k =>
            match cv.change.tov with
            | some tv2 =>
                .ok (.map_ (mapSet ps k tv2), { cv.flags with flagUpdated := true }, cv.err)
            | none =>
                .ok (.map_ (mapRemove ps k), { cv.flags with flagUpdated := true }, cv.err)
        | none =>
            .ok (.map_ ps, { cv.flags with flagUpdated := true, flagFailed := true },
              cv.err)
  | cur =>
      if ¬(deepEqualFrom cur cv.change.fromv) ∧ cv.flags.optionOmitUnequal then
        .ok (cur, { cv.flags with flagIgnored := true },
          some ("target change doesn't match original"))
      else
        let tv : Value := match cv.change.tov with
          | some tv2 => tv2
          | none => .invalid
        let r := cvSet cur cv.flags tv
        .ok (r.1, { r.2 with flagUpdated := true }, cv.err)

/-- renderTargetField, src/patch.go lines 117-152: on a struct cursor
scan all fields, skipping excluded and immutable ones; each name or tag
match replaces the running result with a fresh cursor at that field
(flags cleared, then the create and omitunequal tag options set; the
fresh ChangeValue also drops err, index and key).  There is no break,
so the last match wins.  On a non-struct cursor the result is a fresh
cursor at the same location. -/
def setFieldVal : List (String × String × Value) → Nat → Value →
    List (String × String × Value)
  | [], _, _ => []
  | f :: rest, 0, x => (f.1, f.2.1, x) :: rest
  | f :: rest, Nat.succ i, x => f :: setFieldVal rest i x

def renderLoop (t : ChangeValue) (field : String) :
    List (String × String × Value) → Nat → ChangeValue → ChangeValue
  | [], _, ret => ret
  | f :: rest, i, ret =>
      let tname := tagName f.2.1
      if tname == "-" ∨ hasTagOption f.2.1 ("immutable") then
        renderLoop t field rest (i + 1) ret
      else if tname == field ∨ f.1 == field then
        let newret : ChangeValue :=
          { cur := f.2.2,
            put := fun x =>
              match t.cur with
              | .struct_ fs => t.put (.struct_ (setFieldVal fs i x))
              | _ => t.put t.cur,
            canSet := t.canSet,
            flags := { optionCreate := hasTagOption f.2.1 ("create"),
                       optionOmitUnequal := hasTagOption f.2.1 ("omitunequal") },
            change := t.change,
            err := none,
            index := 0,
            key := none }
        renderLoop t field rest (i + 1) newret
  
      else renderLoop t field rest (i + 1) ret

def renderTargetField (t : ChangeValue) (field : String) : ChangeValue :=
  match t.cur with
  | .struct_ fs => renderLoop t field fs 0 t
  | _ => { t with flags := {}, err := none, index := 0, key := none }

/-- The path-walking loop of patch, src/patch.go lines 79-97: on a
slice cursor the segment is parsed as the index (a parse failure
records an error and returns from patch immediately, signalled by the
Bool); on a map cursor the segment becomes the key (the Convert result
on line 92 is discarded in the source, so the key stays a string); both
stop the walk.  Any other cursor walks into the named field. -/
def walkPath (cv : ChangeValue) : List String → ChangeValue × Bool
  | [] => (cv, false)
  | p :: rest =>
      if cv.cur.kind = .slice then
        match p.toInt? with
        | none => ({ cv with err := some ("invalid index in path: " ++ p) }, true)
        | some n => ({ cv with index := n }, false)
      else if cv.cur.kind = .map_ then
        ({ cv with key := some (.str p) }, false)
      else walkPath (renderTargetField cv p) rest

/-- patch, src/patch.go lines 64-113: apply one Change to the target.
The deferred recover turns any panic (dereferencing a non-pointer
target, or a panic escaping an operation) into the
cannot-set-values-on-target error plus FlagInvalidTarget on this
entry.  Returns the updated target together with the PatchLogEntry. -/
def patch (c : Change) (target : Value) : Value × PatchLogEntry :=
  match target with
  | .ptr (some root) =>
      let cv0 : ChangeValue :=
        { cur := root, put := fun x => x, canSet := true, flags := {}, change := c,
          err := none, index := -1, key := none }
      let w := if root.kind = .struct_ then walkPath cv0 c.path else (cv0, false)
      let cv := w.1
      if w.2 then (target, NewPatchLogEntry cv)
      else if ¬(cv.canSet = true ∧ cv.cur.kind ≠ .invalid) then
        (target, NewPatchLogEntry { cv with
          flags := { cv.flags with flagInvalidTarget := true },
          err := some ("cannot set values on target") })
      else if c.type == DELETE then
        match deleteOperation cv with
        | .ok r =>
            (.ptr (some (cv.put r.1)),
              { path := c.path, fromv := c.fromv, tov := c.tov,
                flags := r.2.1, err := r.2.2 })
        | .error e =>
            (target,
              { path := c.path, fromv := c.fromv, tov := c.tov,
                flags := { e.1 with flagInvalidTarget := true },
                err := some ("cannot set values on target") })
      else if c.type == UPDATE ∨ c.type == CREATE then
        match updateOperation cv with
        | .ok r =>
            (.ptr (some (cv.put r.1)),
              { path := c.path, fromv := c.fromv, tov := c.tov,
                flags := r.2.1, err := r.2.2 })
        | .error e =>
            (target,
              { path := c.path, fromv := c.fromv, tov := c.tov,
                flags := { e.1 with flagInvalidTarget := true },
                err := some ("cannot set values on target") })
      else (target, NewPatchLogEntry cv)
  | .ptr none =>
      (target,
        { path := c.path, fromv := c.fromv, tov := c.tov,
          flags := { flagInvalidTarget := true },
          err := some ("cannot set values on target") })
  | _ =>
      (target,
        { path := c.path, fromv := c.fromv, tov := c.tov,
          flags := { flagInvalidTarget := true },
          err := some ("cannot set values on target") })

/-- Patch, src/patch.go lines 56-61: apply each Change of the changelog
in order against the shared target, collecting one PatchLogEntry per
Change; the function has no error return. -/
def Patch : List Change → Value → List PatchLogEntry × Value
  | [], t => ([], t)
  | c :: rest, t =>
      let r := patch c t
      let rr := Patch rest r.1
      (r.2 :: rr.1, rr.2)

/-! Per-entry isolation of the patch loop: every walk step preserves the
Change carried by the cursor, so every PatchLogEntry reports the path,
From and To of its own Change. -/

theorem renderLoop_change (t : ChangeValue) (field : String) :
    ∀ (fs : List (String × String × Value)) (i : Nat) (ret : ChangeValue),
      ret.change = t.change → (renderLoop t field fs i ret).change = t.change := by
  intro fs
  induction fs with
  | nil => intro i ret hr; simpa [renderLoop] using hr
  | cons f rest ih =>
      intro i ret hr
      simp only [renderLoop]
      split
      · exact ih (i + 1) ret hr
      · split
        · exact ih (i + 1) _ rfl
        · exact ih (i + 1) ret hr

theorem renderTargetField_change (t : ChangeValue) (field : String) :
    (renderTargetField t field).change = t.change := by
  unfold renderTargetField
  split
  · exact renderLoop_change t field _ 0 t rfl
  · rfl

theorem walkPath_change (ps : List String) :
    ∀ cv : ChangeValue, ((walkPath cv ps).1).change = cv.change := by
  induction ps with
  | nil => intro cv; rfl
  | cons p rest ih =>
      intro cv
      simp only [walkPath]
      split
      · split <;> rfl
      · split
        · rfl
        · rw [ih]
          exact renderTargetField_change cv p

theorem patch_proj (c : Change) (t : Value) :
    (patch c t).2.path = c.path ∧ (patch c t).2.fromv = c.fromv ∧
      (patch c t).2.tov = c.tov := by
  cases t with
  | ptr o =>
      cases o with
      | none => simp [patch]
      | some root =>
          by_cases hk : root.kind = Kind.struct_
          · simp only [patch, hk, if_true, eq_self_iff_true]
            generalize hw : walkPath
              { cur := root, put := fun x => x, canSet := true, flags := {},
                change := c, err := none, index := -1, key := none } c.path = w
            have hch : w.1.change = c := by
              rw [← hw, walkPath_change]
            obtain ⟨cv, flag⟩ := w
            simp only at hch
            cases flag
            · simp only [if_false, Bool.false_eq_true]
              repeat' split
              all_goals simp [NewPatchLogEntry, hch]
            · simp [NewPatchLogEntry, hch]
          · simp only [patch, hk, if_false, eq_self_iff_true]
            repeat' split
            all_goals simp [NewPatchLogEntry]
  | invalid => simp [patch]
  | str a => simp [patch]
  | bool a => simp [patch]
  | int a => simp [patch]
  | struct_ a => simp [patch]
  | slice a => simp [patch]
  | map_ a => simp [patch]

theorem Patch_proj : ∀ (cl : List Change) (t : Value),
    ((Patch cl t).1.map fun e => (e.path, e.fromv, e.tov))
      = cl.map fun c2 => (c2.path, c2.fromv, c2.tov) := by
  intro cl
  induction cl with
  | nil => intro t; rfl
  | cons c rest ih =>
      intro t
      have h := patch_proj c t
      simp [Patch, h.1, h.2.1, h.2.2, ih]

/-- C6: Patch returns one PatchLogEntry per input Change, in order, each
reporting its own Change path, From and To; a failing entry (including
the recovered panic on a non-pointer or nil target, which yields the
invalid-target flag plus a recorded error and leaves the target
untouched) never prevents the remaining Changes from being processed,
and Patch itself returns no error. -/
theorem c6_patch_per_entry_isolation (cl : List Change) (t : Value) :
    (Patch cl t).1.length = cl.length
    ∧ ((Patch cl t).1.map fun e => (e.path, e.fromv, e.tov))
        = (cl.map fun c2 => (c2.path, c2.fromv, c2.tov))
    ∧ (∀ (c2 : Change) (t2 : Value), t2.kind ≠ Kind.ptr →
        (patch c2 t2).1 = t2
        ∧ (patch c2 t2).2.flags.flagInvalidTarget = true
        ∧ (patch c2 t2).2.err = some ("cannot set values on target")) := by
  refine ⟨?_, Patch_proj cl t, ?_⟩
  · have h := congrArg List.length (Patch_proj cl t)
    simpa using h
  · intro c2 t2 hk
    cases t2 with
    | ptr o => exact absurd rfl hk
    | invalid => exact ⟨rfl, rfl, rfl⟩
    | str a => exact ⟨rfl, rfl, rfl⟩
    | bool a => exact ⟨rfl, rfl, rfl⟩
    | int a => exact ⟨rfl, rfl, rfl⟩
    | struct_ a => exact ⟨rfl, rfl, rfl⟩
    | slice a => exact ⟨rfl, rfl, rfl⟩
    | map_ a => exact ⟨rfl, rfl, rfl⟩

/-- Closed instance of the C6 theorem: a two-Change changelog applied to
a non-pointer target produces exactly two entries, and the non-pointer
branch flags the first entry invalid-target without stopping the run. -/
theorem c6_patch_per_entry_isolation_witness :
    (Patch [{ type := UPDATE, path := ["x"], fromv := some (.int 1), tov := some (.int 2) },
            { type := DELETE, path := ["y"], fromv := some (.int 3), tov := none }]
        (Value.int 5)).1.length = 2
    ∧ (patch { type := UPDATE, path := ["x"], fromv := some (.int 1), tov := some (.int 2) }
        (Value.int 5)).2.flags.flagInvalidTarget = true := by
  have h := c6_patch_per_entry_isolation
    [{ type := UPDATE, path := ["x"], fromv := some (.int 1), tov := some (.int 2) },
     { type := DELETE, path := ["y"], fromv := some (.int 3), tov := none }]
    (Value.int 5)
  exact ⟨h.1, (h.2.2
    { type := UPDATE, path := ["x"], fromv := some (.int 1), tov := some (.int 2) }
    (Value.int 5) (by decide)).2.1⟩

/-- C7 code_bug: the DELETE slice operation should retarget through a
fallback scan when the element at the recorded index no longer equals
From.  The direct-index match does remove by overwriting with the last
element and truncating (swap-with-last, the second conjunct, deleting
index 1 of [0,1,2,3] yields [0,3,2] with FlagDeleted).  But the fallback
scan of src/patch.go line 170 compares the reflect.Value box x itself
(not x.Interface()) with cv.change.From under reflect.DeepEqual, which
is false for every input, so the scan never finds a match: a DELETE
whose index holds a non-matching element is always marked FlagIgnored
with the unable-to-find error even when an equal element sits elsewhere
in the slice (the first conjunct: From y at index 0 of [x, y] is
ignored and the slice left unchanged, although y is present at
index 1). -/
theorem c7_delete_fallback_never_retargets :
    (deleteOperation
      { cur := .slice [.str ("x"), .str ("y")], put := fun v => v, canSet := true,
        flags := {},
        change := { type := DELETE, path := ["0"], fromv := some (.str ("y")), tov := none },
        err := none, index := 0, key := none }
      = .ok (.slice [.str ("x"), .str ("y")], { flagIgnored := true },
          some ("Unable to find matching slice index entry")))
    ∧ (deleteOperation
      { cur := .slice [.int 0, .int 1, .int 2, .int 3], put := fun v => v, canSet := true,
        flags := {},
        change := { type := DELETE, path := ["1"], fromv := some (.int 1), tov := none },
        err := none, index := 1, key := none }
      = .ok (.slice [.int 0, .int 3, .int 2], { flagDeleted := true }, none)) := by
  exact ⟨rfl, rfl⟩


/-! Model of the Go slice semantics of the path argument, for the
change-immutability analysis.  A []string path is a slice header (array
id, length, capacity) over a heap of backing arrays.  append writes in
place when spare capacity exists, otherwise allocates a fresh array of
doubled capacity (Go growslice for a one-element append on small
slices: capacity 0 grows to 1, otherwise the capacity doubles).
Changelog.add (src/unnamed/part_006 lines 94-101) stores the header
without copying, so a later in-place append through an aliasing header
rewrites the visible path of an already-emitted Change. -/

structure PathSlice where
  arr : Nat
  len : Nat
  cap : Nat
  deriving DecidableEq, Repr

structure GoHeap where
  arrays : List (List String)
  deriving DecidableEq, Repr

def readArr (h : GoHeap) (i : Nat) : List String := h.arrays.getD i []

/-- Dereference a slice header: the first len cells of its array. -/
def pathOf (h : GoHeap) (p : PathSlice) : List String := (readArr h p.arr).take p.len

def goAppend (h : GoHeap) (p : PathSlice) (x : String) : GoHeap × PathSlice :=
  if p.len < p.cap then
    ({ arrays := h.arrays.set p.arr ((readArr h p.arr).set p.len x) },
      { p with len := p.len + 1 })
  else
    let newcap := if p.cap = 0 then 1 else 2 * p.cap
    ({ arrays := h.arrays ++ [(readArr h p.arr).take p.len ++ [x]
        ++ List.replicate (newcap - (p.len + 1)) ("")] },
      { arr := h.arrays.length, len := p.len + 1, cap := newcap })

/-- A Change as stored by Changelog.add: the Path field is the slice
header itself, uncopied.  snap is a ghost observation of the header
cells at the moment of emission, carried for specification only. -/
structure ChangeG where
  type : String
  pathSlice : PathSlice
  snap : List String
  fromv : Option Value
  tov : Option Value
  deriving DecidableEq

/-- diffString with explicit path-slice state (src/unnamed/part_000
lines 5-15); the path is stored as received, without an append. -/
def diffStringG (h : GoHeap) (p : PathSlice) (a b : Value) :
    GoHeap × List ChangeG × Option DiffError :=
  match a, b with
  | .str sa, .str sb =>
      if sa != sb then
        (h, [⟨UPDATE, p, pathOf h p, some (.str sa), some (.str sb)⟩], none)
      else (h, [], none)
  | _, _ => (h, [], some .typeMismatch)

/-- diffInt with explicit path-slice state (src/unnamed/part_002). -/
def diffIntG (h : GoHeap) (p : PathSlice) (a b : Value) :
    GoHeap × List ChangeG × Option DiffError :=
  match a, b with
  | .int na, .int nb =>
      if na != nb then
        (h, [⟨UPDATE, p, pathOf h p, some (.int na), some (.int nb)⟩], none)
      else (h, [], none)
  | _, _ => (h, [], some .typeMismatch)

/-- diffBool with explicit path-slice state (src/diff_bool.go). -/
def diffBoolG (h : GoHeap) (p : PathSlice) (a b : Value) :
    GoHeap × List ChangeG × Option DiffError :=
  match a, b with
  | .bool ba, .bool bb =>
      if ba != bb then
        (h, [⟨UPDATE, p, pathOf h p, some (.bool ba), some (.bool bb)⟩], none)
      else (h, [], none)
  | _, _ => (h, [], some .typeMismatch)

/-- The delete half of diffSliceGeneric with explicit path-slice state
(src/unnamed/part_005 lines 60-68): fpath is appended for every
element, before the membership test. -/
def genDeletesG (bs : List Value) : GoHeap → PathSlice → Nat → List Value →
    GoHeap × List ChangeG
  | h, _, _, [] => (h, [])
  | h, p, i, ae :: rest =>
      let w := goAppend h p (toString i)
      if sliceHas bs ae then genDeletesG bs w.1 p (i + 1) rest
      else
        let rr := genDeletesG bs w.1 p (i + 1) rest
        (rr.1, ⟨DELETE, w.2, pathOf w.1 w.2, some ae, none⟩ :: rr.2)

/-- The create half of diffSliceGeneric with explicit path-slice state
(src/unnamed/part_005 lines 69-77). -/
def genCreatesG (as_ : List Value) : GoHeap → PathSlice → Nat → List Value →
    GoHeap × List ChangeG
  | h, _, _, [] => (h, [])
  | h, p, i, be :: rest =>
      let w := goAppend h p (toString i)
      if sliceHas as_ be then genCreatesG as_ w.1 p (i + 1) rest
      else
        let rr := genCreatesG as_ w.1 p (i + 1) rest
        (rr.1, ⟨CREATE, w.2, pathOf w.1 w.2, none, some be⟩ :: rr.2)

/-- diffSliceGeneric with explicit path-slice state. -/
def diffSliceGenericG (h : GoHeap) (p : PathSlice) (as_ bs : List Value) :
    GoHeap × List ChangeG × Option DiffError :=
  let d := genDeletesG bs h p 0 as_
  let c := genCreatesG as_ d.1 p 0 bs
  (c.1, d.2 ++ c.2, none)

mutual

/-- The dispatcher with explicit path-slice state; same structure as
diff (src/diff.go lines 48-75). -/
def diffG (h : GoHeap) (p : PathSlice) (a b : Value) :
    GoHeap × List ChangeG × Option DiffError :=
  if a.kind != b.kind then (h, [], some .typeMismatch)
  else
    match a with
    | .struct_ fa => diffStructG h p (.struct_ fa) b
    | .slice as_ => diffSliceG h p (.slice as_) b
    | .str _ => diffStringG h p a b
    | .bool _ => diffBoolG h p a b
    | .int _ => diffIntG h p a b
    | .map_ aps => diffMapG h p (.map_ aps) b
    | .ptr oa => diffPtrG h p (.ptr oa) b
    | .invalid => (h, [], some (.unsupported .invalid))
termination_by 3 * (a.sz + b.sz) + 2
decreasing_by all_goals omega

/-- diffStruct with explicit path-slice state (src/unnamed/part_003
lines 5-30). -/
def diffStructG (h : GoHeap) (p : PathSlice) (a b : Value) :
    GoHeap × List ChangeG × Option DiffError :=
  match a with
  | .struct_ fa => diffStructFieldsG h p fa b
  | _ => (h, [], some .typeMismatch)
termination_by 3 * (a.sz + b.sz) + 1
decreasing_by all_goals (simp only [Value.sz]; omega)

/-- The field loop of diffStruct with explicit path-slice state: fpath
is the Go append of the running path and the tag name. -/
def diffStructFieldsG (h : GoHeap) (p : PathSlice)
    (fs : List (String × String × Value)) (b : Value) :
    GoHeap × List ChangeG × Option DiffError :=
  match fs with
  | [] => (h, [], none)
  | f :: rest =>
      let tname := tagName f.2.1
      if tname == "-" then diffStructFieldsG h p rest b
      else
        let w := goAppend h p tname
        let r := diffG w.1 w.2 f.2.2 (fieldByName b f.1)
        match r.2.2 with
        | some e => (r.1, r.2.1, some e)
        | none =>
            let rr := diffStructFieldsG r.1 p rest b
            (rr.1, r.2.1 ++ rr.2.1, rr.2.2)
termination_by 3 * (szFields fs + b.sz)
decreasing_by
  all_goals simp only [szFields]
  all_goals first
    | omega
    | (have h3 := sz_fieldByName_le b f.1
       omega)

/-- diffSlice with explicit path-slice state (src/unnamed/part_005
lines 48-57). -/
def diffSliceG (h : GoHeap) (p : PathSlice) (a b : Value) :
    GoHeap × List ChangeG × Option DiffError :=
  match a, b with
  | .slice as_, .slice bs =>
      if comparative as_ bs then diffSliceComparativeG h p as_ bs
      else diffSliceGenericG h p as_ bs
  | _, _ => (h, [], some .typeMismatch)
termination_by 3 * (a.sz + b.sz) + 1
decreasing_by all_goals (simp only [Value.sz]; omega)

/-- diffSliceComparative with explicit path-slice state. -/
def diffSliceComparativeG (h : GoHeap) (p : PathSlice) (as_ bs : List Value) :
    GoHeap × List ChangeG × Option DiffError :=
  diffComparativeG h p (buildSliceB (buildSliceA [] as_) bs)
termination_by 3 * (szElems as_ + szElems bs) + 3
decreasing_by
  all_goals
    (have h1 := szCEntries_buildSliceB bs (buildSliceA [] as_)
     have h2 := szCEntries_buildSliceA as_ ([] : List CEntry)
     simp only [szCEntries] at h2
     omega)

/-- diffMap with explicit path-slice state (src/diff_map.go). -/
def diffMapG (h : GoHeap) (p : PathSlice) (a b : Value) :
    GoHeap × List ChangeG × Option DiffError :=
  match a, b with
  | .map_ aps, .map_ bps =>
      diffComparativeG h p (buildMapB (buildMapA [] aps) bps)
  | _, _ => (h, [], some .typeMismatch)
termination_by 3 * (a.sz + b.sz) + 1
decreasing_by
  all_goals
    (have h1 := szCEntries_buildMapB bps (buildMapA [] aps)
     have h2 := szCEntries_buildMapA aps ([] : List CEntry)
     simp only [szCEntries] at h2
     simp only [Value.sz]
     omega)

/-- The reconciliation loop with explicit path-slice state: fpath is
appended for every key before the presence tests (src/unnamed/part_005
lines 104-122). -/
def diffComparativeG (h : GoHeap) (p : PathSlice) (entries : List CEntry) :
    GoHeap × List ChangeG × Option DiffError :=
  match entries with
  | [] => (h, [], none)
  | (k, some av, none) :: rest =>
      let w := goAppend h p (idstring k)
      let rr := diffComparativeG w.1 p rest
      (rr.1, ⟨DELETE, w.2, pathOf w.1 w.2, some av, none⟩ :: rr.2.1, rr.2.2)
  | (k, none, some bv) :: rest =>
      let w := goAppend h p (idstring k)
      let rr := diffComparativeG w.1 p rest
      (rr.1, ⟨CREATE, w.2, pathOf w.1 w.2, none, some bv⟩ :: rr.2.1, rr.2.2)
  | (k, some av, some bv) :: rest =>
      let w := goAppend h p (idstring k)
      let r := diffG w.1 w.2 av bv
      match r.2.2 with
      | some e => (r.1, r.2.1, some e)
      | none =>
          let rr := diffComparativeG r.1 p rest
          (rr.1, r.2.1 ++ rr.2.1, rr.2.2)
  | (k, none, none) :: rest =>
      let w := goAppend h p (idstring k)
      diffComparativeG w.1 p rest
termination_by 3 * szCEntries entries + 2
decreasing_by all_goals (simp only [szCEntries, szCEntry, szOptV]; omega)

/-- diffPtr with explicit path-slice state (src/unnamed/part_007). -/
def diffPtrG (h : GoHeap) (p : PathSlice) (a b : Value) :
    GoHeap × List ChangeG × Option DiffError :=
  match a, b with
  | .invalid, .ptr (some bv) => diffG h p .invalid bv
  | .invalid, .ptr none => (h, [], some .typeMismatch)
  | .ptr (some av), .invalid => diffG h p av .invalid
  | .ptr none, .invalid => (h, [], some .typeMismatch)
  | .ptr none, .ptr none => (h, [], none)
  | .ptr none, .ptr (some bv) =>
      (h, [⟨UPDATE, p, pathOf h p, none, some (.ptr (some bv))⟩], none)
  | .ptr (some av), .ptr none =>
      (h, [⟨UPDATE, p, pathOf h p, some (.ptr (some av)), none⟩], none)
  | .ptr (some av), .ptr (some bv) => diffG h p av bv
  | _, _ => (h, [], some .typeMismatch)
termination_by 3 * (a.sz + b.sz) + 1
decreasing_by all_goals (simp only [Value.sz]; omega)

end

def initHeap : GoHeap := { arrays := [] }

def initPath : PathSlice := { arr := 0, len := 0, cap := 0 }

/-- Diff with the Go path-slice semantics explicit, starting from the
empty []string{} literal of src/diff.go line 43. -/
def DiffG (a b : Value) : GoHeap × List ChangeG × Option DiffError :=
  diffG initHeap initPath a b

/-- The by-value part of a stored Change: Type, From, To, and the path
as observed at emission time. -/
def gobs (c : ChangeG) : Change := ⟨c.type, c.snap, c.fromv, c.tov⟩

def gout (r : GoHeap × List ChangeG × Option DiffError) :
    Changelog × Option DiffError :=
  (r.2.1.map gobs, r.2.2)


/-! Heap facts for the path-slice model. -/

theorem getD_set_self {α : Type} (d : α) :
    ∀ (l : List α) (j : Nat) (x : α), j < l.length → (l.set j x).getD j d = x := by
  intro l
  induction l with
  | nil => intro j x hj; simp at hj
  | cons a t ih =>
      intro j x hj
      cases j with
      | zero => rfl
      | succ j => exact ih j x (by simpa using hj)

theorem getD_set_ne {α : Type} (d : α) :
    ∀ (l : List α) (j i : Nat) (x : α), i ≠ j → (l.set j x).getD i d = l.getD i d := by
  intro l
  induction l with
  | nil => intro j i x hne; simp
  | cons a t ih =>
      intro j i x hne
      cases j with
      | zero =>
          cases i with
          | zero => exact absurd rfl hne
          | succ i => rfl
      | succ j =>
          cases i with
          | zero => rfl
          | succ i => exact ih j i x (fun hh => hne (by rw [hh]))

theorem getD_append_left {α : Type} (d : α) :
    ∀ (l l2 : List α) (i : Nat), i < l.length → (l ++ l2).getD i d = l.getD i d := by
  intro l
  induction l with
  | nil => intro l2 i hi; simp at hi
  | cons a t ih =>
      intro l2 i hi
      cases i with
      | zero => rfl
      | succ i => exact ih l2 i (by simpa using hi)

theorem getD_append_length {α : Type} (d : α) :
    ∀ (l : List α) (x : α), (l ++ [x]).getD l.length d = x := by
  intro l
  induction l with
  | nil => intro x; rfl
  | cons a t ih => intro x; exact ih x

theorem take_set_self {α : Type} :
    ∀ (l : List α) (n : Nat) (x : α), (l.set n x).take n = l.take n := by
  intro l
  induction l with
  | nil => intro n x; simp
  | cons a t ih =>
      intro n x
      cases n with
      | zero => simp
      | succ n => simp [ih]

theorem set_take_succ {α : Type} :
    ∀ (l : List α) (n : Nat) (x : α), n < l.length →
      (l.set n x).take (n + 1) = l.take n ++ [x] := by
  intro l
  induction l with
  | nil => intro n x hn; simp at hn
  | cons a t ih =>
      intro n x hn
      cases n with
      | zero => simp
      | succ n =>
          have hn2 : n < t.length := by simpa using hn
          simp [ih n x hn2]

/-- Heap evolution that respects every existing array below depth n:
lengths of existing arrays never change, the heap only grows, and the
first n cells of every existing array are untouched. -/
def heapStep (h h2 : GoHeap) (n : Nat) : Prop :=
  h.arrays.length ≤ h2.arrays.length ∧
  ∀ i, i < h.arrays.length →
    (readArr h2 i).length = (readArr h i).length ∧
    (readArr h2 i).take n = (readArr h i).take n

theorem heapStep_refl (h : GoHeap) (n : Nat) : heapStep h h n :=
  ⟨Nat.le_refl _, fun _ _ => ⟨rfl, rfl⟩⟩

theorem heapStep_trans {h1 h2 h3 : GoHeap} {n : Nat}
    (a : heapStep h1 h2 n) (b : heapStep h2 h3 n) : heapStep h1 h3 n := by
  refine ⟨Nat.le_trans a.1 b.1, fun i hi => ?_⟩
  have hi2 : i < h2.arrays.length := Nat.lt_of_lt_of_le hi a.1
  obtain ⟨al, atk⟩ := a.2 i hi
  obtain ⟨bl, btk⟩ := b.2 i hi2
  exact ⟨bl.trans al, btk.trans atk⟩

theorem take_succ_take {α : Type} :
    ∀ (l : List α) (n : Nat), (l.take (n + 1)).take n = l.take n := by
  intro l
  induction l with
  | nil => intro n; simp
  | cons a t ih =>
      intro n
      cases n with
      | zero => simp
      | succ n => simp [ih n]

theorem heapStep_mono {h1 h2 : GoHeap} {n : Nat}
    (a : heapStep h1 h2 (n + 1)) : heapStep h1 h2 n := by
  refine ⟨a.1, fun i hi => ?_⟩
  obtain ⟨al, atk⟩ := a.2 i hi
  refine ⟨al, ?_⟩
  rw [← take_succ_take (readArr h2 i) n, ← take_succ_take (readArr h1 i) n, atk]

/-- The running path slice is a faithful view of the logical path:
dereferencing yields the path, the header length is the path length and
within capacity, and (unless the header is the empty capacity-0 slice)
the backing array exists with exactly the capacity as length. -/
def wfP (h : GoHeap) (p : PathSlice) (path : List String) : Prop :=
  pathOf h p = path ∧ p.len = path.length ∧ p.len ≤ p.cap ∧
  (p.cap = 0 ∨ ((readArr h p.arr).length = p.cap ∧ p.arr < h.arrays.length))

theorem wfP_preserve {h h2 : GoHeap} {p : PathSlice} {path : List String}
    (hwf : wfP h p path) (hs : heapStep h h2 path.length) : wfP h2 p path := by
  obtain ⟨hpo, hlen, hlc, hco⟩ := hwf
  cases hco with
  | inl hc0 =>
      have hl0 : p.len = 0 := by omega
      have hp0 : path = [] := List.length_eq_zero.mp (by omega)
      exact ⟨by simp [pathOf, hl0, hp0], hlen, hlc, Or.inl hc0⟩
  | inr hr =>
      obtain ⟨hal, harr⟩ := hr
      obtain ⟨hlen2, hper⟩ := hs
      obtain ⟨hle, hte⟩ := hper p.arr harr
      refine ⟨?_, hlen, hlc, Or.inr ⟨by rw [hle, hal], Nat.lt_of_lt_of_le harr hlen2⟩⟩
      unfold pathOf at hpo ⊢
      rw [hlen] at hpo ⊢
      rw [hte, hpo]

theorem goAppend_spec (h : GoHeap) (p : PathSlice) (x : String) (path : List String)
    (hwf : wfP h p path) :
    wfP (goAppend h p x).1 (goAppend h p x).2 (path ++ [x]) ∧
      heapStep h (goAppend h p x).1 path.length := by
  obtain ⟨hpo, hlen, hlc, hco⟩ := hwf
  by_cases hlt : p.len < p.cap
  · have hco2 : (readArr h p.arr).length = p.cap ∧ p.arr < h.arrays.length := by
      cases hco with
      | inl h0 => omega
      | inr hr => exact hr
    obtain ⟨hal, harr⟩ := hco2
    simp only [goAppend, if_pos hlt]
    have hra : readArr { arrays := h.arrays.set p.arr ((readArr h p.arr).set p.len x) } p.arr
        = (readArr h p.arr).set p.len x := by
      unfold readArr
      exact getD_set_self ([]) h.arrays p.arr _ harr
    constructor
    · refine ⟨?_, by simp [hlen], by simp; omega, Or.inr ⟨?_, ?_⟩⟩
      · unfold pathOf
        simp only [hra]
        rw [set_take_succ (readArr h p.arr) p.len x (by omega)]
        rw [show (readArr h p.arr).take p.len = path from hpo]
      · simp only [hra, List.length_set, hal]
      · simpa using harr
    · refine ⟨by simp, fun i hi => ?_⟩
      by_cases hip : i = p.arr
      · subst hip
        refine ⟨by simp only [hra, List.length_set], ?_⟩
        simp only [hra]
        rw [← hlen]
        exact take_set_self (readArr h p.arr) p.len x
      · have hne : readArr { arrays := h.arrays.set p.arr ((readArr h p.arr).set p.len x) } i
            = readArr h i := by
          unfold readArr
          exact getD_set_ne ([]) h.arrays p.arr i _ hip
        rw [hne]
        exact ⟨rfl, rfl⟩
  · have hleq : p.len = p.cap := by omega
    simp only [goAppend, if_neg hlt]
    have hcapbig : p.len + 1 ≤ (if p.cap = 0 then 1 else 2 * p.cap) := by
      by_cases hc0 : p.cap = 0 <;> simp [hc0] <;> omega
    have hA : readArr
        { arrays := h.arrays ++ [(readArr h p.arr).take p.len ++ [x]
            ++ List.replicate ((if p.cap = 0 then 1 else 2 * p.cap) - (p.len + 1)) ("")] }
        h.arrays.length
        = (readArr h p.arr).take p.len ++ [x]
            ++ List.replicate ((if p.cap = 0 then 1 else 2 * p.cap) - (p.len + 1)) ("") := by
      unfold readArr
      exact getD_append_length ([]) h.arrays _
    have hplen : ((readArr h p.arr).take p.len).length = p.len := by
      have h2 := hpo
      unfold pathOf at h2
      rw [h2, hlen]
    constructor
    · refine ⟨?_, by simp [hlen], by simpa using hcapbig, Or.inr ⟨?_, by simp⟩⟩
      · unfold pathOf
        simp only [hA]
        rw [show (readArr h p.arr).take p.len ++ [x]
              ++ List.replicate ((if p.cap = 0 then 1 else 2 * p.cap) - (p.len + 1)) ("")
            = ((readArr h p.arr).take p.len ++ [x])
              ++ List.replicate ((if p.cap = 0 then 1 else 2 * p.cap) - (p.len + 1)) ("")
          from by simp]
        rw [List.take_append_of_le_length (by simp [hplen])]
        rw [List.take_of_length_le (by simp [hplen])]
        have h2 := hpo
        unfold pathOf at h2
        rw [h2]
      · simp only [hA, List.length_append, List.length_replicate, hplen,
          List.length_singleton]
        omega
    · refine ⟨by simp, fun i hi => ?_⟩
      have hne : readArr
          { arrays := h.arrays ++ [(readArr h p.arr).take p.len ++ [x]
              ++ List.replicate ((if p.cap = 0 then 1 else 2 * p.cap) - (p.len + 1)) ("")] } i
          = readArr h i := by
        unfold readArr
        exact getD_append_left ([]) h.arrays _ i hi
      rw [hne]
      exact ⟨rfl, rfl⟩


theorem genDeletesG_corr (bs : List Value) :
    ∀ (as_ : List Value) (i : Nat) (h : GoHeap) (p : PathSlice) (path : List String),
      wfP h p path →
      (genDeletesG bs h p i as_).2.map gobs = genDeletes path bs i as_ ∧
      heapStep h (genDeletesG bs h p i as_).1 path.length := by
  intro as_
  induction as_ with
  | nil => intro i h p path hwf; exact ⟨rfl, heapStep_refl h path.length⟩
  | cons ae rest ih =>
      intro i h p path hwf
      have hap := goAppend_spec h p (toString i) path hwf
      have hwf2 : wfP (goAppend h p (toString i)).1 p path := wfP_preserve hwf hap.2
      have ihh := ih (i + 1) (goAppend h p (toString i)).1 p path hwf2
      cases hsh : sliceHas bs ae with
      | true =>
          simp only [genDeletesG, genDeletes, hsh, if_true, List.nil_append]
          exact ⟨ihh.1, heapStep_trans hap.2 ihh.2⟩
      | false =>
          simp only [genDeletesG, genDeletes, hsh, Bool.false_eq_true, if_false,
            List.singleton_append, List.map_cons]
          refine ⟨?_, heapStep_trans hap.2 ihh.2⟩
          rw [ihh.1]
          have hsnap : pathOf (goAppend h p (toString i)).1 (goAppend h p (toString i)).2
              = path ++ [toString i] := hap.1.1
          simp [gobs, hsnap]

theorem genCreatesG_corr (as_ : List Value) :
    ∀ (bs : List Value) (i : Nat) (h : GoHeap) (p : PathSlice) (path : List String),
      wfP h p path →
      (genCreatesG as_ h p i bs).2.map gobs = genCreates path as_ i bs ∧
      heapStep h (genCreatesG as_ h p i bs).1 path.length := by
  intro bs
  induction bs with
  | nil => intro i h p path hwf; exact ⟨rfl, heapStep_refl h path.length⟩
  | cons be rest ih =>
      intro i h p path hwf
      have hap := goAppend_spec h p (toString i) path hwf
      have hwf2 : wfP (goAppend h p (toString i)).1 p path := wfP_preserve hwf hap.2
      have ihh := ih (i + 1) (goAppend h p (toString i)).1 p path hwf2
      cases hsh : sliceHas as_ be with
      | true =>
          simp only [genCreatesG, genCreates, hsh, if_true, List.nil_append]
          exact ⟨ihh.1, heapStep_trans hap.2 ihh.2⟩
      | false =>
          simp only [genCreatesG, genCreates, hsh, Bool.false_eq_true, if_false,
            List.singleton_append, List.map_cons]
          refine ⟨?_, heapStep_trans hap.2 ihh.2⟩
          rw [ihh.1]
          have hsnap : pathOf (goAppend h p (toString i)).1 (goAppend h p (toString i)).2
              = path ++ [toString i] := hap.1.1
          simp [gobs, hsnap]

theorem diffSliceGenericG_corr (h : GoHeap) (p : PathSlice) (path : List String)
    (as_ bs : List Value) (hwf : wfP h p path) :
    gout (diffSliceGenericG h p as_ bs) = diffSliceGeneric path as_ bs ∧
      heapStep h (diffSliceGenericG h p as_ bs).1 path.length := by
  have hd := genDeletesG_corr bs as_ 0 h p path hwf
  have hwf2 : wfP (genDeletesG bs h p 0 as_).1 p path := wfP_preserve hwf hd.2
  have hc := genCreatesG_corr as_ bs 0 (genDeletesG bs h p 0 as_).1 p path hwf2
  constructor
  · simp [gout, diffSliceGenericG, diffSliceGeneric, hd.1, hc.1]
  · exact heapStep_trans hd.2 hc.2


theorem gout_fst {r : GoHeap × List ChangeG × Option DiffError}
    {pr : Changelog × Option DiffError} (h : gout r = pr) :
    r.2.1.map gobs = pr.1 := by
  rw [← h]; rfl

theorem gout_snd {r : GoHeap × List ChangeG × Option DiffError}
    {pr : Changelog × Option DiffError} (h : gout r = pr) :
    r.2.2 = pr.2 := by
  rw [← h]; rfl

theorem diffG_mismatch {a b : Value} (h : GoHeap) (p : PathSlice) (path : List String)
    (hne : (a.kind != b.kind) = true) :
    gout (diffG h p a b) = diff path a b ∧
      heapStep h (diffG h p a b).1 path.length := by
  refine ⟨?_, ?_⟩
  · rw [diffG.eq_def, diff.eq_def, if_pos hne, if_pos hne]
    rfl
  · rw [diffG.eq_def, if_pos hne]
    exact heapStep_refl h path.length

/-- The path-slice engine agrees with the functional engine: the
emitted changes carry the same types, From and To values and, at
emission time, the same paths, and the engine only ever writes heap
cells at depth at least the current path length (so shallower prefixes,
in particular every already-returned ancestor path, stay intact while a
subtree is processed).  Strong induction on the size bound n. -/
theorem diffG_corr : ∀ n : Nat,
    (∀ (entries : List CEntry) (h : GoHeap) (p : PathSlice) (path : List String),
      szCEntries entries ≤ n → wfP h p path →
      gout (diffComparativeG h p entries) = diffComparative path entries ∧
      heapStep h (diffComparativeG h p entries).1 path.length) ∧
    (∀ (fs : List (String × String × Value)) (b : Value) (h : GoHeap) (p : PathSlice)
        (path : List String),
      szFields fs + b.sz ≤ n → wfP h p path →
      gout (diffStructFieldsG h p fs b) = diffStructFields path fs b ∧
      heapStep h (diffStructFieldsG h p fs b).1 path.length) ∧
    (∀ (a b : Value) (h : GoHeap) (p : PathSlice) (path : List String),
      a.sz + b.sz ≤ n → wfP h p path →
      gout (diffG h p a b) = diff path a b ∧
      heapStep h (diffG h p a b).1 path.length) := by
  intro n
  induction n using Nat.strong_induction_on with
  | _ n IH =>
  have Scomp : ∀ (entries : List CEntry) (h : GoHeap) (p : PathSlice) (path : List String),
      szCEntries entries ≤ n → wfP h p path →
      gout (diffComparativeG h p entries) = diffComparative path entries ∧
      heapStep h (diffComparativeG h p entries).1 path.length := by
    intro entries
    induction entries with
    | nil =>
        intro h p path hsz hwf
        simp only [diffComparativeG, diffComparative]
        exact ⟨rfl, heapStep_refl h path.length⟩
    | cons e rest ihe =>
        intro h p path hsz hwf
        obtain ⟨k, oa, ob⟩ := e
        have hszr : szCEntries rest ≤ n := by
          simp only [szCEntries, szCEntry] at hsz
          omega
        have hap := goAppend_spec h p (idstring k) path hwf
        have hwf2 : wfP (goAppend h p (idstring k)).1 p path := wfP_preserve hwf hap.2
        cases oa with
        | none =>
            cases ob with
            | none =>
                have ihh := ihe (goAppend h p (idstring k)).1 p path hszr hwf2
                simp only [diffComparativeG, diffComparative]
                exact ⟨ihh.1, heapStep_trans hap.2 ihh.2⟩
            | some bv =>
                have ihh := ihe (goAppend h p (idstring k)).1 p path hszr hwf2
                simp only [diffComparativeG, diffComparative]
                refine ⟨?_, ?_⟩
                · simp only [gout, List.map_cons]
                  rw [gout_fst ihh.1, gout_snd ihh.1]
                  simp [gobs, hap.1.1]
                · exact heapStep_trans hap.2 ihh.2
        | some av =>
            cases ob with
            | none =>
                have ihh := ihe (goAppend h p (idstring k)).1 p path hszr hwf2
                simp only [diffComparativeG, diffComparative]
                refine ⟨?_, ?_⟩
                · simp only [gout, List.map_cons]
                  rw [gout_fst ihh.1, gout_snd ihh.1]
                  simp [gobs, hap.1.1]
                · exact heapStep_trans hap.2 ihh.2
            | some bv =>
                have hn0 : 0 < n := by
                  simp only [szCEntries, szCEntry] at hsz
                  omega
                obtain ⟨IHc, IHf, IHd⟩ := IH (n - 1) (by omega)
                have hb : av.sz + bv.sz ≤ n - 1 := by
                  simp only [szCEntries, szCEntry, szOptV] at hsz
                  omega
                have hchild := IHd av bv (goAppend h p (idstring k)).1
                  (goAppend h p (idstring k)).2 (path ++ [idstring k]) hb hap.1
                have hm := gout_fst hchild.1
                have he := gout_snd hchild.1
                have hstep2 : heapStep (goAppend h p (idstring k)).1
                    (diffG (goAppend h p (idstring k)).1 (goAppend h p (idstring k)).2
                      av bv).1 path.length := by
                  apply heapStep_mono
                  simpa using hchild.2
                simp only [diffComparativeG, diffComparative]
                rw [he]
                cases hpe : (diff (path ++ [idstring k]) av bv).2 with
                | some e =>
                    refine ⟨?_, ?_⟩
                    · simp only [gout]
                      rw [hm]
                    · exact heapStep_trans hap.2 hstep2
                | none =>
                    have hwf3 : wfP (diffG (goAppend h p (idstring k)).1
                        (goAppend h p (idstring k)).2 av bv).1 p path :=
                      wfP_preserve hwf2 hstep2
                    have ihh := ihe (diffG (goAppend h p (idstring k)).1
                        (goAppend h p (idstring k)).2 av bv).1 p path hszr hwf3
                    refine ⟨?_, ?_⟩
                    · simp only [gout, List.map_append]
                      rw [hm, gout_fst ihh.1, gout_snd ihh.1]
                    · exact heapStep_trans hap.2 (heapStep_trans hstep2 ihh.2)
  have Sfields : ∀ (fs : List (String × String × Value)) (b : Value) (h : GoHeap)
      (p : PathSlice) (path : List String),
      szFields fs + b.sz ≤ n → wfP h p path →
      gout (diffStructFieldsG h p fs b) = diffStructFields path fs b ∧
      heapStep h (diffStructFieldsG h p fs b).1 path.length := by
    intro fs
    induction fs with
    | nil =>
        intro b h p path hsz hwf
        simp only [diffStructFieldsG, diffStructFields]
        exact ⟨rfl, heapStep_refl h path.length⟩
    | cons f rest ihf =>
        intro b h p path hsz hwf
        have hszr : szFields rest + b.sz ≤ n := by
          simp only [szFields] at hsz
          omega
        cases ht : (tagName f.2.1 == "-") with
        | true =>
            simp only [diffStructFieldsG, diffStructFields, ht, if_true]
            exact ihf b h p path hszr hwf
        | false =>
            have hap := goAppend_spec h p (tagName f.2.1) path hwf
            have hwf2 : wfP (goAppend h p (tagName f.2.1)).1 p path :=
              wfP_preserve hwf hap.2
            have hn0 : 0 < n := by
              have hob := one_le_sz b
              simp only [szFields] at hsz
              omega
            obtain ⟨IHc, IHf, IHd⟩ := IH (n - 1) (by omega)
            have hb : f.2.2.sz + (fieldByName b f.1).sz ≤ n - 1 := by
              have h3 := sz_fieldByName_le b f.1
              simp only [szFields] at hsz
              omega
            have hchild := IHd f.2.2 (fieldByName b f.1) (goAppend h p (tagName f.2.1)).1
              (goAppend h p (tagName f.2.1)).2 (path ++ [tagName f.2.1]) hb hap.1
            have hm := gout_fst hchild.1
            have he := gout_snd hchild.1
            have hstep2 : heapStep (goAppend h p (tagName f.2.1)).1
                (diffG (goAppend h p (tagName f.2.1)).1 (goAppend h p (tagName f.2.1)).2
                  f.2.2 (fieldByName b f.1)).1 path.length := by
              apply heapStep_mono
              simpa using hchild.2
            simp only [diffStructFieldsG, diffStructFields, ht, Bool.false_eq_true, if_false]
            rw [he]
            cases hpe : (diff (path ++ [tagName f.2.1]) f.2.2 (fieldByName b f.1)).2 with
            | some e =>
                refine ⟨?_, ?_⟩
                · simp only [gout]
                  rw [hm]
                · exact heapStep_trans hap.2 hstep2
            | none =>
                have hwf3 : wfP (diffG (goAppend h p (tagName f.2.1)).1
                    (goAppend h p (tagName f.2.1)).2 f.2.2 (fieldByName b f.1)).1 p path :=
                  wfP_preserve hwf2 hstep2
                have ihh := ihf b (diffG (goAppend h p (tagName f.2.1)).1
                    (goAppend h p (tagName f.2.1)).2 f.2.2 (fieldByName b f.1)).1 p path
                  hszr hwf3
                refine ⟨?_, ?_⟩
                · simp only [gout, List.map_append]
                  rw [hm, gout_fst ihh.1, gout_snd ihh.1]
                · exact heapStep_trans hap.2 (heapStep_trans hstep2 ihh.2)
  have Sdiff : ∀ (a b : Value) (h : GoHeap) (p : PathSlice) (path : List String),
      a.sz + b.sz ≤ n → wfP h p path →
      gout (diffG h p a b) = diff path a b ∧
      heapStep h (diffG h p a b).1 path.length := by
    intro a b h p path hsz hwf
    have hn0 : 0 < n := by
      have ha1 := one_le_sz a
      have hb1 := one_le_sz b
      omega
    obtain ⟨IHc, IHf, IHd⟩ := IH (n - 1) (by omega)
    cases a with
    | invalid =>
        cases b with
        | invalid =>
            refine ⟨?_, ?_⟩
            · simp [diffG, diff, Value.kind, gout]
            · simp only [diffG, Value.kind, bne_self_eq_false, Bool.false_eq_true, if_false]
              exact heapStep_refl h path.length
        | str x => exact diffG_mismatch h p path rfl
        | bool x => exact diffG_mismatch h p path rfl
        | int x => exact diffG_mismatch h p path rfl
        | struct_ x => exact diffG_mismatch h p path rfl
        | slice x => exact diffG_mismatch h p path rfl
        | map_ x => exact diffG_mismatch h p path rfl
        | ptr x => exact diffG_mismatch h p path rfl
    | str sa =>
        cases b with
        | str sb =>
            by_cases hss : sa = sb
            · subst hss
              refine ⟨?_, ?_⟩
              · simp [diffG, diff, Value.kind, diffStringG, diffString, gout]
              · simp only [diffG, Value.kind, bne_self_eq_false, Bool.false_eq_true,
                  if_false, diffStringG]
                exact heapStep_refl h path.length
            · have hb2 : (sa != sb) = true := by simp [bne_iff_ne, hss]
              refine ⟨?_, ?_⟩
              · simp [diffG, diff, Value.kind, diffStringG, diffString, gout, gobs, hb2,
                  hwf.1]
              · simp only [diffG, Value.kind, bne_self_eq_false, Bool.false_eq_true,
                  if_false, diffStringG, hb2, if_true]
                exact heapStep_refl h path.length
        | invalid => exact diffG_mismatch h p path rfl
        | bool x => exact diffG_mismatch h p path rfl
        | int x => exact diffG_mismatch h p path rfl
        | struct_ x => exact diffG_mismatch h p path rfl
        | slice x => exact diffG_mismatch h p path rfl
        | map_ x => exact diffG_mismatch h p path rfl
        | ptr x => exact diffG_mismatch h p path rfl
    | bool ba =>
        cases b with
        | bool bb =>
            by_cases hss : ba = bb
            · subst hss
              refine ⟨?_, ?_⟩
              · simp [diffG, diff, Value.kind, diffBoolG, diffBool, gout]
              · simp only [diffG, Value.kind, bne_self_eq_false, Bool.false_eq_true,
                  if_false, diffBoolG]
                exact heapStep_refl h path.length
            · have hb2 : (ba != bb) = true := by simp [bne_iff_ne, hss]
              refine ⟨?_, ?_⟩
              · simp [diffG, diff, Value.kind, diffBoolG, diffBool, gout, gobs, hb2,
                  hwf.1]
              · simp only [diffG, Value.kind, bne_self_eq_false, Bool.false_eq_true,
                  if_false, diffBoolG, hb2, if_true]
                exact heapStep_refl h path.length
        | invalid => exact diffG_mismatch h p path rfl
        | str x => exact diffG_mismatch h p path rfl
        | int x => exact diffG_mismatch h p path rfl
        | struct_ x => exact diffG_mismatch h p path rfl
        | slice x => exact diffG_mismatch h p path rfl
        | map_ x => exact diffG_mismatch h p path rfl
        | ptr x => exact diffG_mismatch h p path rfl
    | int na =>
        cases b with
        | int nb =>
            by_cases hss : na = nb
            · subst hss
              refine ⟨?_, ?_⟩
              · simp [diffG, diff, Value.kind, diffIntG, diffInt, gout]
              · simp only [diffG, Value.kind, bne_self_eq_false, Bool.false_eq_true,
                  if_false, diffIntG]
                exact heapStep_refl h path.length
            · have hb2 : (na != nb) = true := by simp [bne_iff_ne, hss]
              refine ⟨?_, ?_⟩
              · simp [diffG, diff, Value.kind, diffIntG, diffInt, gout, gobs, hb2,
                  hwf.1]
              · simp only [diffG, Value.kind, bne_self_eq_false, Bool.false_eq_true,
                  if_false, diffIntG, hb2, if_true]
                exact heapStep_refl h path.length
        | invalid => exact diffG_mismatch h p path rfl
        | str x => exact diffG_mismatch h p path rfl
        | bool x => exact diffG_mismatch h p path rfl
        | struct_ x => exact diffG_mismatch h p path rfl
        | slice x => exact diffG_mismatch h p path rfl
        | map_ x => exact diffG_mismatch h p path rfl
        | ptr x => exact diffG_mismatch h p path rfl
    | struct_ fa =>
        cases b with
        | struct_ fb =>
            have hb2 : szFields fa + (Value.struct_ fb).sz ≤ n - 1 := by
              simp only [Value.sz] at hsz ⊢
              omega
            have hh := IHf fa (.struct_ fb) h p path hb2 hwf
            have hred : diffG h p (.struct_ fa) (.struct_ fb)
                = diffStructFieldsG h p fa (.struct_ fb) := by
              rw [diffG.eq_def]
              simp [Value.kind, diffStructG]
            have hredp : diff path (.struct_ fa) (.struct_ fb)
                = diffStructFields path fa (.struct_ fb) := by
              rw [diff.eq_def]
              simp [Value.kind, diffStruct]
            rw [hred, hredp]
            exact hh
        | invalid => exact diffG_mismatch h p path rfl
        | str x => exact diffG_mismatch h p path rfl
        | bool x => exact diffG_mismatch h p path rfl
        | int x => exact diffG_mismatch h p path rfl
        | slice x => exact diffG_mismatch h p path rfl
        | map_ x => exact diffG_mismatch h p path rfl
        | ptr x => exact diffG_mismatch h p path rfl
    | slice as_ =>
        cases b with
        | slice bs =>
            cases hc : comparative as_ bs with
            | false =>
                have hgen := diffSliceGenericG_corr h p path as_ bs hwf
                have hred : diffG h p (.slice as_) (.slice bs)
                    = diffSliceGenericG h p as_ bs := by
                  rw [diffG.eq_def]
                  simp [Value.kind, diffSliceG, hc]
                have hredp : diff path (.slice as_) (.slice bs)
                    = diffSliceGeneric path as_ bs := by
                  rw [diff.eq_def]
                  simp [Value.kind, diffSlice, hc]
                rw [hred, hredp]
                exact hgen
            | true =>
                have hb2 : szCEntries (buildSliceB (buildSliceA [] as_) bs) ≤ n - 1 := by
                  have h1 := szCEntries_buildSliceB bs (buildSliceA [] as_)
                  have h2 := szCEntries_buildSliceA as_ ([] : List CEntry)
                  simp only [szCEntries] at h2
                  simp only [Value.sz] at hsz
                  omega
                have hh := IHc (buildSliceB (buildSliceA [] as_) bs) h p path hb2 hwf
                have hred : diffG h p (.slice as_) (.slice bs)
                    = diffComparativeG h p (buildSliceB (buildSliceA [] as_) bs) := by
                  rw [diffG.eq_def]
                  simp [Value.kind, diffSliceG, hc, diffSliceComparativeG]
                have hredp : diff path (.slice as_) (.slice bs)
                    = diffComparative path (buildSliceB (buildSliceA [] as_) bs) := by
                  rw [diff.eq_def]
                  simp [Value.kind, diffSlice, hc, diffSliceComparative]
                rw [hred, hredp]
                exact hh
        | invalid => exact diffG_mismatch h p path rfl
        | str x => exact diffG_mismatch h p path rfl
        | bool x => exact diffG_mismatch h p path rfl
        | int x => exact diffG_mismatch h p path rfl
        | struct_ x => exact diffG_mismatch h p path rfl
        | map_ x => exact diffG_mismatch h p path rfl
        | ptr x => exact diffG_mismatch h p path rfl
    | map_ aps =>
        cases b with
        | map_ bps =>
            have hb2 : szCEntries (buildMapB (buildMapA [] aps) bps) ≤ n - 1 := by
              have h1 := szCEntries_buildMapB bps (buildMapA [] aps)
              have h2 := szCEntries_buildMapA aps ([] : List CEntry)
              simp only [szCEntries] at h2
              simp only [Value.sz] at hsz
              omega
            have hh := IHc (buildMapB (buildMapA [] aps) bps) h p path hb2 hwf
            have hred : diffG h p (.map_ aps) (.map_ bps)
                = diffComparativeG h p (buildMapB (buildMapA [] aps) bps) := by
              rw [diffG.eq_def]
              simp [Value.kind, diffMapG]
            have hredp : diff path (.map_ aps) (.map_ bps)
                = diffComparative path (buildMapB (buildMapA [] aps) bps) := by
              rw [diff.eq_def]
              simp [Value.kind, diffMap]
            rw [hred, hredp]
            exact hh
        | invalid => exact diffG_mismatch h p path rfl
        | str x => exact diffG_mismatch h p path rfl
        | bool x => exact diffG_mismatch h p path rfl
        | int x => exact diffG_mismatch h p path rfl
        | struct_ x => exact diffG_mismatch h p path rfl
        | slice x => exact diffG_mismatch h p path rfl
        | ptr x => exact diffG_mismatch h p path rfl
    | ptr oa =>
        cases b with
        | ptr ob =>
            cases oa with
            | none =>
                cases ob with
                | none =>
                    refine ⟨?_, ?_⟩
                    · simp [diffG, diff, Value.kind, diffPtrG, diffPtr, gout]
                    · simp only [diffG, Value.kind, bne_self_eq_false, Bool.false_eq_true,
                        if_false, diffPtrG]
                      exact heapStep_refl h path.length
                | some bv =>
                    refine ⟨?_, ?_⟩
                    · simp [diffG, diff, Value.kind, diffPtrG, diffPtr, gout, gobs, hwf.1]
                    · simp only [diffG, Value.kind, bne_self_eq_false, Bool.false_eq_true,
                        if_false, diffPtrG]
                      exact heapStep_refl h path.length
            | some av =>
                cases ob with
                | none =>
                    refine ⟨?_, ?_⟩
                    · simp [diffG, diff, Value.kind, diffPtrG, diffPtr, gout, gobs, hwf.1]
                    · simp only [diffG, Value.kind, bne_self_eq_false, Bool.false_eq_true,
                        if_false, diffPtrG]
                      exact heapStep_refl h path.length
                | some bv =>
                    have hb2 : av.sz + bv.sz ≤ n - 1 := by
                      simp only [Value.sz] at hsz
                      omega
                    have hh := IHd av bv h p path hb2 hwf
                    have hred : diffG h p (.ptr (some av)) (.ptr (some bv))
                        = diffG h p av bv := by
                      rw [diffG.eq_def]
                      simp [Value.kind, diffPtrG]
                    have hredp : diff path (.ptr (some av)) (.ptr (some bv))
                        = diff path av bv := by
                      rw [diff.eq_def]
                      simp [Value.kind, diffPtr]
                    rw [hred, hredp]
                    exact hh
        | invalid => exact diffG_mismatch h p path rfl
        | str x => exact diffG_mismatch h p path rfl
        | bool x => exact diffG_mismatch h p path rfl
        | int x => exact diffG_mismatch h p path rfl
        | struct_ x => exact diffG_mismatch h p path rfl
        | slice x => exact diffG_mismatch h p path rfl
        | map_ x => exact diffG_mismatch h p path rfl
  exact ⟨Scomp, Sfields, Sdiff⟩


/-- C9 (amended): what Changelog.add stores by value is fixed at
emission time.  For every input pair, the path-slice engine emits
exactly the changes of the functional engine: same Types, same From and
To values, and at the moment of emission each stored path header
dereferences to the functional path (gout projects each stored Change
to its Type, emission-time path, From and To).  The claimed
immutability of the Path SEGMENTS as later read through the stored
header is refuted separately: the header aliases the shared backing
array, and a later sibling append (capacity spare from depth four on)
rewrites the cell, see the counterexample. -/
theorem c9_change_values_fixed_at_emission (a b : Value) :
    gout (DiffG a b) = Diff a b := by
  have hwf : wfP initHeap initPath [] := by
    refine ⟨rfl, rfl, Nat.le_refl 0, Or.inl rfl⟩
  exact ((diffG_corr (a.sz + b.sz)).2.2 a b initHeap initPath []
    (Nat.le_refl _) hwf).1

/-- C9 counterexample: diffing two four-level nested structs whose two
innermost leaves both changed.  The path slice reaches length 3
capacity 4 at depth three, so the two leaf appends write the same
backing-array cell in place.  At emission the first Change reads path
a.b.c.f1, but after the Diff call returns, both stored Path headers
dereference to a.b.c.f2: emitting the second sibling change rewrote the
already-emitted first one, and no error occurred. -/
theorem c9_counterexample :
    (let r := DiffG
        (.struct_ [("A", "a", .struct_ [("B", "b", .struct_ [("C", "c",
          .struct_ [("F1", "f1", .int 1), ("F2", "f2", .int 2)])])])])
        (.struct_ [("A", "a", .struct_ [("B", "b", .struct_ [("C", "c",
          .struct_ [("F1", "f1", .int 10), ("F2", "f2", .int 20)])])])]);
      r.2.1.map (fun c => (c.snap, pathOf r.1 c.pathSlice))
        = [(["a", "b", "c", "f1"], ["a", "b", "c", "f2"]),
           (["a", "b", "c", "f2"], ["a", "b", "c", "f2"])]
      ∧ r.2.2 = none) := by
  have ht1 : tagName ("a") = "a" := by decide
  have ht2 : tagName ("b") = "b" := by decide
  have ht3 : tagName ("c") = "c" := by decide
  have ht4 : tagName ("f1") = "f1" := by decide
  have ht5 : tagName ("f2") = "f2" := by decide
  have s1 : (("a" : String) == "-") = false := by decide
  have s2 : (("b" : String) == "-") = false := by decide
  have s3 : (("c" : String) == "-") = false := by decide
  have s4 : (("f1" : String) == "-") = false := by decide
  have s5 : (("f2" : String) == "-") = false := by decide
  have s6 : (("A" : String) == "A") = true := by decide
  have s7 : (("B" : String) == "B") = true := by decide
  have s8 : (("C" : String) == "C") = true := by decide
  have s9 : (("F1" : String) == "F1") = true := by decide
  have s10 : (("F1" : String) == "F2") = false := by decide
  have s11 : (("F2" : String) == "F2") = true := by decide
  simp [DiffG, diffG, diffStructG, diffStructFieldsG, diffIntG, goAppend, pathOf,
    readArr, initHeap, initPath, ht1, ht2, ht3, ht4, ht5, s1, s2, s3, s4, s5, s6, s7,
    s8, s9, s10, s11, fieldByName, Value.kind, gobs]


/-! C5: the v3 cycle guard.  src/unnamed/part_004 carries
Differ.diffPtr with the pointersSeen bookkeeping; the Differ
dispatcher it recurses through is not part of src/, so the surrounding
engine is modelled from the spec (section 4.2): kind dispatch over a
minimal heap language with integers, structs and pointers into an
explicit heap, a kind mismatch aborting, and every same-kind pointer
pair routed through the literal part_004 guard.  Note lines 63-64 of
part_004: both aok and bok read aSeen[b.Pointer()], so the mirror
lookup bSeen[a.Pointer()] is never consulted; the marking on lines
68-69 is symmetric, so a mirror-visited pair always has its direct
orientation visited as well and the mirror skip still holds
observably.  Termination is modelled by fuel; the sufficiency theorem
shows a computable fuel bound always returns some. -/

inductive HVal where
  | hInt (n : Int)
  | hPtr (o : Option Nat)
  | hStruct (fields : List (String × HVal))

abbrev Heap := List HVal

/-- reflect.Indirect through a pointer cell. -/
def derefH (hp : Heap) (i : Nat) : HVal := hp.getD i (.hInt 0)

/-- The Differ state: d.pointersSeen flattened to a set of ordered
address pairs ((a, b) stands for b in pointersSeen[a]). -/
structure DState where
  seen : List (Nat × Nat)

structure ChangeH where
  type : String
  path : List String
  fromv : Option HVal
  tov : Option HVal

mutual

def szH : HVal → Nat
  | .hInt _ => 1
  | .hPtr _ => 1
  | .hStruct fs => 1 + szFH fs
termination_by structural v => v

def szFH : List (String × HVal) → Nat
  | [] => 0
  | f :: fs => 1 + szH f.2 + szFH fs
termination_by structural fs => fs

end

mutual

def wfV (N : Nat) : HVal → Bool
  | .hInt _ => true
  | .hPtr none => true
  | .hPtr (some i) => decide (i < N)
  | .hStruct fs => wfVF N fs
termination_by structural v => v

def wfVF (N : Nat) : List (String × HVal) → Bool
  | [] => true
  | f :: fs => wfV N f.2 && wfVF N fs
termination_by structural fs => fs

end

def wfH (hp : Heap) : Bool := hp.all (wfV hp.length)

def fieldByNameH (b : HVal) (n : String) : HVal :=
  match b with
  | .hStruct fs =>
      match fs.find? (fun f => f.1 == n) with
      | some f => f.2
      | none => .hInt 0
  | _ => .hInt 0

/-- pointersSeen is symmetric: every recorded pair has its mirror. -/
def symClosed (seen : List (Nat × Nat)) : Bool :=
  seen.all (fun q => seen.contains (q.2, q.1))

mutual

/-- The spec-modelled v3 dispatcher over the heap language, with the
pointer arm a literal transcription of src/unnamed/part_004 lines
37-72: nil handling, then the aok and bok lookups (both reading
aSeen[b.Pointer()] as in the source), skip on a hit, symmetric marking
of both orientations, then recursion through the dereferenced pair. -/
def diffH : Nat → Heap → DState → List String → HVal → HVal →
    Option (DState × List ChangeH × Option DiffError)
  | 0, _, _, _, _, _ => none
  | Nat.succ fuel, hp, st, path, a, b =>
      match a, b with
      | .hInt na, .hInt nb =>
          if na != nb then
            some (st, [⟨UPDATE, path, some (.hInt na), some (.hInt nb)⟩], none)
          else some (st, [], none)
      | .hStruct fa, .hStruct fb => diffFieldsH fuel hp st path fa (.hStruct fb)
      | .hPtr none, .hPtr none => some (st, [], none)
      | .hPtr none, .hPtr (some pb) =>
          some (st, [⟨UPDATE, path, none, some (.hPtr (some pb))⟩], none)
      | .hPtr (some pa), .hPtr none =>
          some (st, [⟨UPDATE, path, some (.hPtr (some pa)), none⟩], none)
      | .hPtr (some pa), .hPtr (some pb) =>
          let aok := st.seen.contains (pa, pb)
          let bok := st.seen.contains (pa, pb)
          if aok || bok then some (st, [], none)
          else
            diffH fuel hp { seen := (pa, pb) :: (pb, pa) :: st.seen } path
              (derefH hp pa) (derefH hp pb)
      | _, _ => some (st, [], some .typeMismatch)
termination_by structural fuel => fuel

/-- The struct-field loop of the spec dispatcher.  The fuel also pays
one unit per field so that the recursion is structural in the fuel;
the sufficiency theorem accounts for it. -/
def diffFieldsH : Nat → Heap → DState → List String → List (String × HVal) → HVal →
    Option (DState × List ChangeH × Option DiffError)
  | _, _, st, _, [], _ => some (st, [], none)
  | 0, _, _, _, _ :: _, _ => none
  | Nat.succ fuel, hp, st, path, f :: rest, b =>
      match diffH fuel hp st (path ++ [f.1]) f.2 (fieldByNameH b f.1) with
      | none => none
      | some (st2, cs, some e) => some (st2, cs, some e)
      | some (st2, cs, none) =>
          match diffFieldsH fuel hp st2 path rest b with
          | none => none
          | some (st3, cs2, e2) => some (st3, cs ++ cs2, e2)
termination_by structural fuel => fuel

end

/-- Cell sizes never exceed this bound. -/
def MB (hp : Heap) : Nat := (hp.map szH).foldr Nat.max 0 + 1

def allPairs (N : Nat) : List (Nat × Nat) :=
  (List.range N).flatMap (fun i => (List.range N).map (fun j => (i, j)))

/-- How many in-range pointer pairs are not yet recorded. -/
def unseenCount (N : Nat) (seen : List (Nat × Nat)) : Nat :=
  ((allPairs N).filter (fun q => !seen.contains q)).length

/-- Diff as the v3 entry point: a fresh (empty) visited set for each
call, and a fuel budget the sufficiency theorem proves adequate. -/
def DiffH (hp : Heap) (a b : HVal) :
    Option (DState × List ChangeH × Option DiffError) :=
  diffH (szH a + szH b + unseenCount hp.length [] * (2 * MB hp + 1) + 1)
    hp { seen := [] } [] a b


theorem one_le_szH (v : HVal) : 1 ≤ szH v := by
  cases v <;> simp [szH]

theorem szH_mem_le {f : String × HVal} :
    ∀ {fs : List (String × HVal)}, f ∈ fs → szH f.2 + 1 ≤ szFH fs := by
  intro fs
  induction fs with
  | nil => intro h; simp at h
  | cons g rest ih =>
      intro h
      cases h with
      | head => simp only [szFH]; omega
      | tail _ h2 =>
          have h3 := ih h2
          simp only [szFH]
          omega

theorem wfVF_mem {N : Nat} :
    ∀ {fs : List (String × HVal)}, wfVF N fs = true →
      ∀ {f : String × HVal}, f ∈ fs → wfV N f.2 = true := by
  intro fs
  induction fs with
  | nil => intro _ f hf; simp at hf
  | cons g rest ih =>
      intro h f hf
      simp only [wfVF, Bool.and_eq_true] at h
      cases hf with
      | head => exact h.1
      | tail _ hf2 => exact ih h.2 hf2

theorem fieldByNameH_wf {N : Nat} {b : HVal} (h : wfV N b = true) (n : String) :
    wfV N (fieldByNameH b n) = true := by
  cases b with
  | hStruct fs =>
      simp only [fieldByNameH]
      cases hf : fs.find? (fun f => f.1 == n) with
      | none => rfl
      | some f =>
          have hm : f ∈ fs := List.mem_of_find?_eq_some hf
          have h2 : wfVF N fs = true := by simpa [wfV] using h
          exact wfVF_mem h2 hm
  | hInt n2 => rfl
  | hPtr o => rfl

theorem szH_fieldByNameH_le (b : HVal) (n : String) :
    szH (fieldByNameH b n) ≤ szH b := by
  cases b with
  | hStruct fs =>
      simp only [fieldByNameH]
      cases hf : fs.find? (fun f => f.1 == n) with
      | none => simp only [szH]; omega
      | some f =>
          have hm := szH_mem_le (List.mem_of_find?_eq_some hf)
          simp only [szH]
          omega
  | hInt n2 => simp [fieldByNameH, szH]
  | hPtr o => simp [fieldByNameH, szH]

theorem derefH_wf {hp : Heap} (h : wfH hp = true) (i : Nat) :
    wfV hp.length (derefH hp i) = true := by
  unfold derefH
  rw [List.getD_eq_getElem?_getD]
  cases hg : hp[i]? with
  | none => rfl
  | some v =>
      have hm : v ∈ hp := List.getElem?_mem hg
      have h2 : ∀ x ∈ hp, wfV hp.length x = true := by
        simpa [wfH, List.all_eq_true] using h
      exact h2 v hm

theorem mem_le_foldr_max :
    ∀ (l : List Nat) (x : Nat), x ∈ l → x ≤ l.foldr Nat.max 0 := by
  intro l
  induction l with
  | nil => intro x hx; simp at hx
  | cons a t ih =>
      intro x hx
      simp only [List.foldr_cons]
      cases hx with
      | head => exact Nat.le_max_left _ _
      | tail _ h2 => exact Nat.le_trans (ih x h2) (Nat.le_max_right _ _)

theorem szH_derefH_le (hp : Heap) (i : Nat) : szH (derefH hp i) ≤ MB hp := by
  unfold derefH MB
  rw [List.getD_eq_getElem?_getD]
  cases hg : hp[i]? with
  | none => simp only [Option.getD, szH]; omega
  | some v =>
      have hm : szH v ∈ hp.map szH := List.mem_map_of_mem _ (List.getElem?_mem hg)
      have h2 := mem_le_foldr_max _ _ hm
      exact Nat.le_trans h2 (Nat.le_succ _)

theorem mem_allPairs {N pa pb : Nat} : (pa, pb) ∈ allPairs N ↔ (pa < N ∧ pb < N) := by
  simp [allPairs, List.mem_flatMap, List.mem_map, List.mem_range, Prod.mk.injEq]

theorem length_filter_le_of_imp {α : Type} :
    ∀ (l : List α) (p q : α → Bool), (∀ x ∈ l, q x = true → p x = true) →
      (l.filter q).length ≤ (l.filter p).length := by
  intro l
  induction l with
  | nil => intro p q _; simp
  | cons a t ih =>
      intro p q h
      have ht := ih p q (fun x hx => h x (List.mem_cons_of_mem a hx))
      cases hq : q a with
      | true =>
          have hp2 := h a (List.mem_cons_self a t) hq
          simp only [List.filter_cons, hq, hp2, if_true, List.length_cons]
          omega
      | false =>
          cases hp2 : p a with
          | true =>
              simp only [List.filter_cons, hq, hp2, Bool.false_eq_true, if_false, if_true,
                List.length_cons]
              omega
          | false =>
              simp only [List.filter_cons, hq, hp2, Bool.false_eq_true, if_false]
              exact ht

theorem length_filter_lt_of_witness {α : Type} :
    ∀ (l : List α) (p q : α → Bool), (∀ x ∈ l, q x = true → p x = true) →
      ∀ x, x ∈ l → p x = true → q x = false →
      (l.filter q).length < (l.filter p).length := by
  intro l
  induction l with
  | nil => intro p q _ x hx; simp at hx
  | cons a t ih =>
      intro p q h x hx hpx hqx
      have himp := fun y hy => h y (List.mem_cons_of_mem a hy)
      cases hx with
      | head =>
          have hle := length_filter_le_of_imp t p q himp
          simp only [List.filter_cons, hqx, hpx, Bool.false_eq_true, if_false, if_true,
            List.length_cons]
          omega
      | tail _ hxt =>
          have hlt := ih p q himp x hxt hpx hqx
          cases hq : q a with
          | true =>
              have hp2 := h a (List.mem_cons_self a t) hq
              simp only [List.filter_cons, hq, hp2, if_true, List.length_cons]
              omega
          | false =>
              cases hp2 : p a with
              | true =>
                  simp only [List.filter_cons, hq, hp2, Bool.false_eq_true, if_false,
                    if_true, List.length_cons]
                  omega
              | false =>
                  simp only [List.filter_cons, hq, hp2, Bool.false_eq_true, if_false]
                  exact hlt

theorem contains_cons_of {y q : Nat × Nat} {seen : List (Nat × Nat)}
    (h : seen.contains q = true) : (y :: seen).contains q = true := by
  simp only [List.contains_cons, h, Bool.or_true]

theorem contains_head {q : Nat × Nat} {seen : List (Nat × Nat)} :
    (q :: seen).contains q = true := by
  simp only [List.contains_cons, beq_self_eq_true, Bool.true_or]

theorem contains_iff_pair {seen : List (Nat × Nat)} {q : Nat × Nat} :
    seen.contains q = true ↔ q ∈ seen := by
  induction seen with
  | nil => simp
  | cons a t ih =>
      simp only [List.contains_cons, Bool.or_eq_true, beq_iff_eq, ih, List.mem_cons]

theorem unseen_mono {N : Nat} {seen seen2 : List (Nat × Nat)}
    (h : ∀ q, seen.contains q = true → seen2.contains q = true) :
    unseenCount N seen2 ≤ unseenCount N seen := by
  unfold unseenCount
  apply length_filter_le_of_imp
  intro x _ hq
  simp only [Bool.not_eq_true'] at hq ⊢
  cases hc : seen.contains x with
  | false => rfl
  | true =>
      rw [h x hc] at hq
      exact Bool.noConfusion hq

theorem unseen_decreases {N : Nat} {seen : List (Nat × Nat)} {pa pb : Nat}
    (ha : pa < N) (hb : pb < N) (hnew : seen.contains (pa, pb) = false) :
    unseenCount N ((pa, pb) :: (pb, pa) :: seen) < unseenCount N seen := by
  unfold unseenCount
  have himp : ∀ x ∈ allPairs N,
      (fun q => !((pa, pb) :: (pb, pa) :: seen).contains q) x = true →
      (fun q => !seen.contains q) x = true := by
    intro x _ hq
    simp only [Bool.not_eq_true'] at hq ⊢
    cases hc : seen.contains x with
    | false => rfl
    | true =>
        have h2 : ((pa, pb) :: (pb, pa) :: seen).contains x = true :=
          contains_cons_of (contains_cons_of hc)
        rw [h2] at hq
        exact Bool.noConfusion hq
  have hx : (pa, pb) ∈ allPairs N := mem_allPairs.mpr ⟨ha, hb⟩
  have hpx : (fun q => !seen.contains q) (pa, pb) = true := by
    simp only [hnew, Bool.not_false]
  have hqx : (fun q => !((pa, pb) :: (pb, pa) :: seen).contains q) (pa, pb) = false := by
    have hcc : ((pa, pb) :: (pb, pa) :: seen).contains (pa, pb) = true := contains_head
    simp only [hcc, Bool.not_true]
  exact length_filter_lt_of_witness (allPairs N) _ _ himp (pa, pb) hx hpx hqx

theorem unseen_pos {N : Nat} {seen : List (Nat × Nat)} {pa pb : Nat}
    (ha : pa < N) (hb : pb < N) (hnew : seen.contains (pa, pb) = false) :
    1 ≤ unseenCount N seen := by
  unfold unseenCount
  have hm : (pa, pb) ∈ (allPairs N).filter (fun q => !seen.contains q) := by
    rw [List.mem_filter]
    exact ⟨mem_allPairs.mpr ⟨ha, hb⟩, by simp only [hnew, Bool.not_false]⟩
  exact List.length_pos_of_mem hm

theorem symClosed_insert {seen : List (Nat × Nat)} {pa pb : Nat}
    (h : symClosed seen = true) : symClosed ((pa, pb) :: (pb, pa) :: seen) = true := by
  unfold symClosed at h ⊢
  rw [List.all_eq_true] at h ⊢
  intro q hq
  cases hq with
  | head => exact contains_cons_of contains_head
  | tail _ hq2 =>
      cases hq2 with
      | head => exact contains_head
      | tail _ hq3 => exact contains_cons_of (contains_cons_of (h q hq3))

theorem diffH_symClosed : ∀ (fuel : Nat),
    (∀ (hp : Heap) (st : DState) (path : List String) (a b : HVal)
        (r : DState × List ChangeH × Option DiffError),
      diffH fuel hp st path a b = some r → symClosed st.seen = true →
      symClosed r.1.seen = true) ∧
    (∀ (hp : Heap) (st : DState) (path : List String) (fs : List (String × HVal))
        (b : HVal) (r : DState × List ChangeH × Option DiffError),
      diffFieldsH fuel hp st path fs b = some r → symClosed st.seen = true →
      symClosed r.1.seen = true) := by
  intro fuel
  induction fuel with
  | zero =>
      constructor
      · intro hp st path a b r hr hs
        simp [diffH] at hr
      · intro hp st path fs b r hr hs
        cases fs with
        | nil =>
            simp only [diffFieldsH, Option.some.injEq] at hr
            rw [← hr]
            exact hs
        | cons f rest => simp [diffFieldsH] at hr
  | succ n ihn =>
      obtain ⟨ihd, ihf⟩ := ihn
      have hd : ∀ (hp : Heap) (st : DState) (path : List String) (a b : HVal)
          (r : DState × List ChangeH × Option DiffError),
          diffH (n + 1) hp st path a b = some r → symClosed st.seen = true →
          symClosed r.1.seen = true := by
        intro hp st path a b r hr hs
        cases a with
        | hInt na =>
            cases b with
            | hInt nb =>
                simp only [diffH] at hr
                split at hr <;>
                  (simp only [Option.some.injEq] at hr; rw [← hr]; exact hs)
            | hPtr o =>
                simp only [diffH, Option.some.injEq] at hr
                rw [← hr]; exact hs
            | hStruct fs2 =>
                simp only [diffH, Option.some.injEq] at hr
                rw [← hr]; exact hs
        | hStruct fa =>
            cases b with
            | hStruct fb =>
                simp only [diffH] at hr
                exact ihf hp st path fa (.hStruct fb) r hr hs
            | hInt x =>
                simp only [diffH, Option.some.injEq] at hr
                rw [← hr]; exact hs
            | hPtr o =>
                simp only [diffH, Option.some.injEq] at hr
                rw [← hr]; exact hs
        | hPtr oa =>
            cases b with
            | hPtr ob =>
                cases oa with
                | none =>
                    cases ob with
                    | none =>
                        simp only [diffH, Option.some.injEq] at hr
                        rw [← hr]; exact hs
                    | some pb2 =>
                        simp only [diffH, Option.some.injEq] at hr
                        rw [← hr]; exact hs
                | some pa2 =>
                    cases ob with
                    | none =>
                        simp only [diffH, Option.some.injEq] at hr
                        rw [← hr]; exact hs
                    | some pb2 =>
                        simp only [diffH] at hr
                        split at hr
                        · simp only [Option.some.injEq] at hr
                          rw [← hr]; exact hs
                        · rename_i hcond
                          have hc : st.seen.contains (pa2, pb2) = false := by
                            cases hcc : st.seen.contains (pa2, pb2) with
                            | false => rfl
                            | true => exact absurd (by rw [hcc]; rfl) hcond
                          exact ihd hp ⟨(pa2, pb2) :: (pb2, pa2) :: st.seen⟩ path
                            (derefH hp pa2) (derefH hp pb2) r hr (symClosed_insert hs)
            | hInt x =>
                simp only [diffH, Option.some.injEq] at hr
                rw [← hr]; exact hs
            | hStruct fs2 =>
                simp only [diffH, Option.some.injEq] at hr
                rw [← hr]; exact hs
      refine ⟨hd, ?_⟩
      intro hp st path fs b r hr hs
      cases fs with
      | nil =>
          simp only [diffFieldsH, Option.some.injEq] at hr
          rw [← hr]; exact hs
      | cons f rest =>
          simp only [diffFieldsH] at hr
          split at hr
          · exact Option.noConfusion hr
          · rename_i st2 cs e hch
            simp only [Option.some.injEq] at hr
            rw [← hr]
            exact ihd hp st (path ++ [f.1]) f.2 (fieldByNameH b f.1) (st2, cs, some e)
              hch hs
          · rename_i st2 cs hch
            have hs2 := ihd hp st (path ++ [f.1]) f.2 (fieldByNameH b f.1)
              (st2, cs, none) hch hs
            split at hr
            · exact Option.noConfusion hr
            · rename_i st3 cs2 e2 hr2
              simp only [Option.some.injEq] at hr
              rw [← hr]
              exact ihf hp st2 path rest b (st3, cs2, e2) hr2 hs2

theorem diffH_total : ∀ (fuel : Nat),
    (∀ (hp : Heap) (st : DState) (path : List String) (a b : HVal),
      wfH hp = true → wfV hp.length a = true → wfV hp.length b = true →
      szH a + szH b + unseenCount hp.length st.seen * (2 * MB hp + 1) + 1 ≤ fuel →
      ∃ r, diffH fuel hp st path a b = some r ∧
        ∀ q, st.seen.contains q = true → r.1.seen.contains q = true) ∧
    (∀ (hp : Heap) (st : DState) (path : List String) (fs : List (String × HVal))
        (b : HVal),
      wfH hp = true → wfVF hp.length fs = true → wfV hp.length b = true →
      szFH fs + szH b + unseenCount hp.length st.seen * (2 * MB hp + 1) + 1 ≤ fuel →
      ∃ r, diffFieldsH fuel hp st path fs b = some r ∧
        ∀ q, st.seen.contains q = true → r.1.seen.contains q = true) := by
  intro fuel
  induction fuel with
  | zero =>
      constructor
      · intro hp st path a b _ _ _ hsz
        have h1 := one_le_szH a
        omega
      · intro hp st path fs b _ _ _ hsz
        have h1 := one_le_szH b
        omega
  | succ n ihn =>
      obtain ⟨ihd, ihf⟩ := ihn
      constructor
      · intro hp st path a b hwh hwa hwb hsz
        cases a with
        | hInt na =>
            cases b with
            | hInt nb =>
                cases hne : (na != nb) with
                | true =>
                    refine ⟨(st, [⟨UPDATE, path, some (.hInt na), some (.hInt nb)⟩], none),
                      ?_, fun q hq => hq⟩
                    simp [diffH, hne]
                | false =>
                    refine ⟨(st, [], none), ?_, fun q hq => hq⟩
                    simp [diffH, hne]
            | hPtr o =>
                exact ⟨(st, [], some .typeMismatch), by simp [diffH], fun q hq => hq⟩
            | hStruct fs2 =>
                exact ⟨(st, [], some .typeMismatch), by simp [diffH], fun q hq => hq⟩
        | hStruct fa =>
            cases b with
            | hStruct fb =>
                have hfa : wfVF hp.length fa = true := by simpa [wfV] using hwa
                have hbound : szFH fa + szH (HVal.hStruct fb)
                    + unseenCount hp.length st.seen * (2 * MB hp + 1) + 1 ≤ n := by
                  simp only [szH] at hsz ⊢
                  omega
                obtain ⟨r, hr, hsup⟩ := ihf hp st path fa (.hStruct fb) hwh hfa hwb hbound
                refine ⟨r, ?_, hsup⟩
                simp only [diffH]
                exact hr
            | hInt x =>
                exact ⟨(st, [], some .typeMismatch), by simp [diffH], fun q hq => hq⟩
            | hPtr o =>
                exact ⟨(st, [], some .typeMismatch), by simp [diffH], fun q hq => hq⟩
        | hPtr oa =>
            cases b with
            | hPtr ob =>
                cases oa with
                | none =>
                    cases ob with
                    | none => exact ⟨(st, [], none), by simp [diffH], fun q hq => hq⟩
                    | some pb2 =>
                        exact ⟨(st, [⟨UPDATE, path, none, some (.hPtr (some pb2))⟩], none),
                          by simp [diffH], fun q hq => hq⟩
                | some pa2 =>
                    cases ob with
                    | none =>
                        exact ⟨(st, [⟨UPDATE, path, some (.hPtr (some pa2)), none⟩], none),
                          by simp [diffH], fun q hq => hq⟩
                    | some pb2 =>
                        cases hc : st.seen.contains (pa2, pb2) with
                        | true =>
                            exact ⟨(st, [], none),
                              by simp only [diffH, hc, Bool.or_self, eq_self_iff_true,
                                if_true],
                              fun q hq => hq⟩
                        | false =>
                            have hpa : pa2 < hp.length := by simpa [wfV] using hwa
                            have hpb : pb2 < hp.length := by simpa [wfV] using hwb
                            have hwda := derefH_wf hwh pa2
                            have hwdb := derefH_wf hwh pb2
                            have hU2 : unseenCount hp.length
                                ((pa2, pb2) :: (pb2, pa2) :: st.seen) + 1
                                ≤ unseenCount hp.length st.seen :=
                              @unseen_decreases hp.length st.seen pa2 pb2 hpa hpb hc
                            have hsa := szH_derefH_le hp pa2
                            have hsb := szH_derefH_le hp pb2
                            have hmul := Nat.mul_le_mul_right (2 * MB hp + 1) hU2
                            rw [Nat.add_mul, Nat.one_mul] at hmul
                            have hbound : szH (derefH hp pa2) + szH (derefH hp pb2)
                                + unseenCount hp.length
                                  ((pa2, pb2) :: (pb2, pa2) :: st.seen)
                                  * (2 * MB hp + 1) + 1 ≤ n := by
                              simp only [szH] at hsz
                              omega
                            obtain ⟨r, hr, hsup⟩ := ihd hp
                              ⟨(pa2, pb2) :: (pb2, pa2) :: st.seen⟩ path
                              (derefH hp pa2) (derefH hp pb2) hwh hwda hwdb hbound
                            refine ⟨r, ?_, ?_⟩
                            · simp only [diffH, hc, Bool.or_self, Bool.false_eq_true,
                                if_false]
                              exact hr
                            · intro q hq
                              exact hsup q (contains_cons_of (contains_cons_of hq))
            | hInt x =>
                exact ⟨(st, [], some .typeMismatch), by simp [diffH], fun q hq => hq⟩
            | hStruct fs2 =>
                exact ⟨(st, [], some .typeMismatch), by simp [diffH], fun q hq => hq⟩
      · intro hp st path fs b hwh hwfs hwb hsz
        cases fs with
        | nil => exact ⟨(st, [], none), by simp [diffFieldsH], fun q hq => hq⟩
        | cons f rest =>
            have hwf1 : wfV hp.length f.2 = true := by
              simp only [wfVF, Bool.and_eq_true] at hwfs
              exact hwfs.1
            have hwrest : wfVF hp.length rest = true := by
              simp only [wfVF, Bool.and_eq_true] at hwfs
              exact hwfs.2
            have hwfb := fieldByNameH_wf hwb f.1
            have hsfb := szH_fieldByNameH_le b f.1
            have hbound1 : szH f.2 + szH (fieldByNameH b f.1)
                + unseenCount hp.length st.seen * (2 * MB hp + 1) + 1 ≤ n := by
              simp only [szFH] at hsz
              omega
            obtain ⟨rc, hch, hsup1⟩ := ihd hp st (path ++ [f.1]) f.2 (fieldByNameH b f.1)
              hwh hwf1 hwfb hbound1
            obtain ⟨st2, cs, oe⟩ := rc
            cases oe with
            | some e =>
                refine ⟨(st2, cs, some e), ?_, hsup1⟩
                simp only [diffFieldsH]
                rw [hch]
            | none =>
                have hU2 : unseenCount hp.length st2.seen
                    ≤ unseenCount hp.length st.seen := unseen_mono hsup1
                have hmul := Nat.mul_le_mul_right (2 * MB hp + 1) hU2
                have hf1 := one_le_szH f.2
                have hbound2 : szFH rest + szH b
                    + unseenCount hp.length st2.seen * (2 * MB hp + 1) + 1 ≤ n := by
                  simp only [szFH] at hsz
                  omega
                obtain ⟨rr, hrr, hsup2⟩ := ihf hp st2 path rest b hwh hwrest hwb hbound2
                obtain ⟨st3, cs2, e2⟩ := rr
                refine ⟨(st3, cs ++ cs2, e2), ?_, fun q hq => hsup2 q (hsup1 q hq)⟩
                have hstep : diffFieldsH (n + 1) hp st path (f :: rest) b
                    = match diffFieldsH n hp st2 path rest b with
                      | none => none
                      | some (st3b, cs2b, e2b) => some (st3b, cs ++ cs2b, e2b) := by
                  simp only [diffFieldsH]
                  rw [hch]
                rw [hstep, hrr]


/-- C5: on every well-formed heap (all pointers in range), including
arbitrary reference cycles, the Diff entry point terminates (returns
some, never runs out of its computed fuel budget); before dereferencing
a same-kind pointer pair the engine consults the visited set (the
part_004 code reads the (left, right) orientation twice, lines 63-64,
but because marking is always symmetric a mirror-visited pair always
has its direct orientation recorded, so a hit on either orientation
skips with no changes and no recursion, second conjunct); an unvisited
pair is marked in both orientations before recursing through the
dereferenced values (third conjunct, an equation of the source line
68-71 behaviour); the engine preserves the symmetry of the visited set
(fourth conjunct); and the visited set is fresh per call (DiffH starts
from the empty seen list). -/
theorem c5_cycle_guard :
    (∀ (hp : Heap) (a b : HVal), wfH hp = true → wfV hp.length a = true →
        wfV hp.length b = true → (DiffH hp a b).isSome = true)
    ∧ (∀ (fuel : Nat) (hp : Heap) (st : DState) (path : List String) (pa pb : Nat),
        symClosed st.seen = true →
        (st.seen.contains (pa, pb) = true ∨ st.seen.contains (pb, pa) = true) →
        diffH (fuel + 1) hp st path (.hPtr (some pa)) (.hPtr (some pb))
          = some (st, [], none))
    ∧ (∀ (fuel : Nat) (hp : Heap) (st : DState) (path : List String) (pa pb : Nat),
        st.seen.contains (pa, pb) = false →
        diffH (fuel + 1) hp st path (.hPtr (some pa)) (.hPtr (some pb))
          = diffH fuel hp { seen := (pa, pb) :: (pb, pa) :: st.seen } path
              (derefH hp pa) (derefH hp pb))
    ∧ (∀ (fuel : Nat) (hp : Heap) (st : DState) (path : List String) (a b : HVal)
        (r : DState × List ChangeH × Option DiffError),
        diffH fuel hp st path a b = some r → symClosed st.seen = true →
        symClosed r.1.seen = true) := by
  refine ⟨?_, ?_, ?_, ?_⟩
  · intro hp a b hwh hwa hwb
    obtain ⟨r, hr, _⟩ := (diffH_total
        (szH a + szH b + unseenCount hp.length ([] : List (Nat × Nat))
          * (2 * MB hp + 1) + 1)).1
      hp { seen := [] } [] a b hwh hwa hwb (Nat.le_refl _)
    unfold DiffH
    rw [hr]
    rfl
  · intro fuel hp st path pa pb hs hmem
    have hc : st.seen.contains (pa, pb) = true := by
      cases hmem with
      | inl h1 => exact h1
      | inr h2 =>
          have hm : (pb, pa) ∈ st.seen := contains_iff_pair.mp h2
          have h3 := (List.all_eq_true.mp hs) (pb, pa) hm
          exact h3
    simp only [diffH, hc, Bool.or_self, eq_self_iff_true, if_true]
  · intro fuel hp st path pa pb hc
    simp only [diffH, hc, Bool.or_self, Bool.false_eq_true, if_false]
  · intro fuel hp st path a b r hr hs
    exact (diffH_symClosed fuel).1 hp st path a b r hr hs

/-- Closed instance of the C5 theorem: a one-cell cyclic heap (a struct
whose next field points back at its own cell) diffed against itself
terminates, and a visited pair is skipped with no changes. -/
theorem c5_cycle_guard_witness :
    (DiffH [HVal.hStruct [("next", .hPtr (some 0)), ("val", .hInt 1)]]
        (.hPtr (some 0)) (.hPtr (some 0))).isSome = true
    ∧ diffH 6 [HVal.hStruct [("next", .hPtr (some 0)), ("val", .hInt 1)]]
        { seen := [(0, 0)] } [] (.hPtr (some 0)) (.hPtr (some 0))
        = some ({ seen := [(0, 0)] }, [], none) := by
  refine ⟨c5_cycle_guard.1 _ _ _ (by decide) (by decide) (by decide), ?_⟩
  exact c5_cycle_guard.2.1 5 _ { seen := [(0, 0)] } [] 0 0 (by decide)
    (Or.inl (by decide))


end DiffSpec
